import Mathlib

/-!
Formal model of the hashin requirements-file tool (src/hashin.py).

Strings are modelled as lists of characters (`Str`), documents as the raw
character sequence of the requirements file.  Python string primitives used by
the source (strip, splitlines, str.replace, startswith, "\n".join) are given
executable definitions, and the two regular expressions that the merge engine
uses (the package-header pattern built in amend_requirements_content and the
[-_] normalisation in is_different_lines) are modelled as concrete matching
functions on single lines; a multiline search is the first matching line.
-/

namespace Hashin

abbrev Str := List Char

/-- Characters stripped by Python str.strip() (ASCII whitespace). -/
def pyIsSpace (c : Char) : Bool :=
  c = ' ' || c = '\t' || c = '\n' || c = '\r' || c = '\x0b' || c = '\x0c'

/-- Whitespace characters recognised by the header regex class [ \t]. -/
def isBlankChar (c : Char) : Bool := c = ' ' || c = '\t'

/-- startswith for character lists (models Python str.startswith). -/
def startsWith : Str → Str → Bool
  | [], _ => true
  | _ :: _, [] => false
  | p :: ps, c :: cs => p = c && startsWith ps cs

/-- Strip the given characters from the left end. -/
def stripLeftChars (bad : List Char) (s : Str) : Str :=
  s.dropWhile (fun c => bad.contains c)

/-- Strip the given characters from both ends (models str.strip(chars)). -/
def stripBothChars (bad : List Char) (s : Str) : Str :=
  ((stripLeftChars bad s).reverse.dropWhile (fun c => bad.contains c)).reverse

/-- Python str.strip() with no argument: strip whitespace from both ends. -/
def pyStrip (s : Str) : Str :=
  ((s.dropWhile pyIsSpace).reverse.dropWhile pyIsSpace).reverse

/-- Models str.strip(" \\"): strip spaces and backslashes from both ends.
This is the cleaning applied per line inside is_different_lines. -/
def stripSpaceBackslash (s : Str) : Str :=
  stripBothChars [' ', '\\'] s

/-- Worker for splitlines: emits completed lines; a final newline produces no
trailing empty line (Python splitlines semantics). -/
def splitlinesGo : Str → Str → List Str
  | [], cur => [cur.reverse]
  | c :: rest, cur =>
    if c = '\n' then
      match rest with
      | [] => [cur.reverse]
      | _ :: _ => cur.reverse :: splitlinesGo rest []
    else splitlinesGo rest (c :: cur)

/-- Python str.splitlines() for newline-delimited text. -/
def pySplitlines (s : Str) : List Str :=
  if s = [] then [] else splitlinesGo s []

/-- Worker splitting on every newline, keeping a trailing empty segment. -/
def splitNlGo : Str → Str → List Str
  | [], cur => [cur.reverse]
  | c :: rest, cur =>
    if c = '\n' then cur.reverse :: splitNlGo rest []
    else splitNlGo rest (c :: cur)

/-- Split on newlines keeping the trailing segment (str.split("\n")). -/
def splitNl (s : Str) : List Str := splitNlGo s []

/-- Python sep.join(parts). -/
def pyJoin (sep : Str) : List Str → Str
  | [] => []
  | [x] => x
  | x :: xs => x ++ sep ++ pyJoin sep xs

/-- Join lines, terminating every line with a newline. -/
def unlines (ls : List Str) : Str :=
  ls.foldr (fun l acc => l ++ '\n' :: acc) []

/-- Python str.replace for an empty pattern: the replacement is inserted at
every character boundary. -/
def replaceEmptyPat (rep : Str) : Str → Str
  | [] => rep
  | c :: rest => rep ++ c :: replaceEmptyPat rep rest

/-- Consume an expected prefix, returning the remainder on success. -/
def dropPre : Str → Str → Option Str
  | [], s => some s
  | _ :: _, [] => none
  | p :: ps, c :: cs => if p = c then dropPre ps cs else none

/-- Worker for str.replace with a non-empty pattern.  The fuel argument only
bounds the recursion; it is at least the length of the remaining text at
every call, so the zero-fuel case is never reached on a non-empty subject. -/
def replaceGo (pat rep : Str) : Nat → Str → Str
  | _, [] => []
  | 0, s => s
  | fuel + 1, c :: rest =>
    match dropPre pat (c :: rest) with
    | some r => rep ++ replaceGo pat rep fuel r
    | none => c :: replaceGo pat rep fuel rest

/-- Python str.replace(pat, rep): replace all non-overlapping occurrences,
scanning left to right. -/
def replaceAll (s pat rep : Str) : Str :=
  if pat = [] then replaceEmptyPat rep s
  else replaceGo pat rep s.length s

/-- The run of leading blanks of a line: what the regex group
(?P<indent>[ \t]*) captures on a matching line. -/
def leadingBlanks (s : Str) : Str := s.takeWhile isBlankChar

/-- Match of one pattern character of the compiled package-name pattern
against one subject character: re.escape(old_name) with "\\-" replaced by
"[-_]", compiled with re.IGNORECASE.  A hyphen in the name matches both
hyphen and underscore; every other character matches case-insensitively. -/
def charMatches (p c : Char) : Bool :=
  if p = '-' then c = '-' || c = '_'
  else p.toLower = c.toLower

/-- Consume the package-name pattern, returning the remaining characters on
success. -/
def matchName : Str → Str → Option Str
  | [], rest => some rest
  | _ :: _, [] => none
  | p :: ps, c :: cs => if charMatches p c then matchName ps cs else none

/-- Scan for "]==": existence of a match of the tail of the regex fragment
\[.*\]== once an opening bracket has been consumed. -/
def containsCloseEq : Str → Bool
  | [] => false
  | c :: rest => (c = ']' && startsWith ['=', '='] rest) || containsCloseEq rest

/-- Match of the regex fragment (\[.*\])?== against the characters following
the package name. -/
def afterNameMatches (rest : Str) : Bool :=
  if startsWith ['=', '='] rest then true
  else
    match rest with
    | '[' :: r => containsCloseEq r
    | _ => false

/-- Whether one line is matched by the header regex
^(?P<indent>[ \t]*)NAME(\[.*\])?== (searching within the line; the ^ anchor
restricts every match to the start of the line). -/
def lineMatches (name line : Str) : Bool :=
  match matchName name (line.dropWhile isBlankChar) with
  | none => false
  | some r => afterNameMatches r

/-- First line of the document matched by the header regex: a re.MULTILINE
search over the whole document finds the leftmost match, which is on the
first matching line. -/
def findFirstMatch (name : Str) : List Str → Option Str
  | [] => none
  | l :: ls => if lineMatches name l then some l else findFirstMatch name ls

/-- re.sub(r"[-_]", "-", line): normalise delimiters of the old lines. -/
def normalizeDelims (s : Str) : Str :=
  s.map (fun c => if c = '_' then '-' else c)

/-- Membership test used to compare Python sets of strings. -/
def memStr (x : Str) (l : List Str) : Bool := l.any (fun y => y = x)

/-- Equality of the two Python sets built inside is_different_lines. -/
def setEqStr (a b : List Str) : Bool :=
  a.all (fun x => memStr x b) && b.all (fun x => memStr x a)

/-- The four-space padding constant of amend_requirements_content. -/
def padding : Str := [' ', ' ', ' ', ' ']

/-- is_different_lines from amend_requirements_content: compare the collected
old lines against the proposed new lines as sets, stripping spaces and
backslashes, normalising - and _ on the old side and prefixing the captured
indent on the new side. -/
def is_different_lines (old_lines new_lines : List Str) (indent : Str) : Bool :=
  !setEqStr (old_lines.map (fun l => normalizeDelims (stripSpaceBackslash l)))
    (new_lines.map (fun x => indent ++ stripSpaceBackslash x))

/-- The line-collection loop of amend_requirements_content: gather the lines
of the matched entry (header re-matches, then continuation lines indented by
the captured indent plus four spaces; an indented comment or any other line
ends the collection). -/
def collectGo (name indent : Str) (acc : List Str) : List Str → List Str
  | [] => acc
  | l :: rest =>
    if lineMatches name l then collectGo name indent (acc ++ [l]) rest
    else if acc ≠ [] && startsWith (indent ++ padding ++ ['#']) l then acc
    else if acc ≠ [] && startsWith (indent ++ padding) l then
      collectGo name indent (acc ++ [l]) rest
    else if acc ≠ [] then acc
    else collectGo name indent acc rest

/-- re.sub(r"^(.+)$", indent + \1, new_text, flags=re.MULTILINE): prefix the
indent to every non-empty line of the replacement text. -/
def reindent (indent : Str) (txt : Str) : Str :=
  pyJoin ['\n'] ((splitNl txt).map (fun seg => if seg = [] then [] else indent ++ seg))

/-- One iteration of the edit loop of amend_requirements_content for the edit
(package, old_name, new_text); the first component of the triple is unused by
the loop body, exactly as in the source. -/
def amendOne (requirements : Str) (edit : Str × Str × Str) : Str :=
  let old_name := edit.2.1
  let new_text := edit.2.2
  match findFirstMatch old_name (pySplitlines requirements) with
  | none =>
    let r := if requirements = [] then [] else pyStrip requirements ++ ['\n']
    r ++ pyStrip new_text ++ ['\n']
  | some matched =>
    let indent := leadingBlanks matched
    let lines := collectGo old_name indent [] (pySplitlines requirements)
    if is_different_lines lines (pySplitlines new_text) indent then
      let combined := pyJoin ['\n'] (lines ++ [[]])
      let indented := reindent indent new_text
      replaceAll requirements combined indented
    else requirements

/-- amend_requirements_content: fold every edit, in order, over the growing
document. -/
def amend_requirements_content (requirements : Str) (all_new_lines : List (Str × Str × Str)) : Str :=
  all_new_lines.foldl amendOne requirements

/-! ### expand_python_version -/

/-- Test of re.match(r"^\d\.\d$", version): one digit, a dot, one digit. -/
def matchesShortVersion (version : Str) : Bool :=
  match version with
  | [a, '.', b] => a.isDigit && b.isDigit
  | _ => false

/-- expand_python_version from the source.  When the short-version pattern
does not match, the version is returned as a one-element list; otherwise the
seven identifier patterns are instantiated (the Python set is modelled as the
list in pattern order; claims about it compare as sets). -/
def expand_python_version (version : Str) : List Str :=
  if !matchesShortVersion version then [version]
  else
    match version with
    | [major, _, minor] =>
      [[major, '.', minor],
       ['c', 'p', major, minor],
       ['p', 'y', major],
       ['p', 'y', major, '.', minor],
       ['p', 'y', major, minor],
       "source".toList,
       "py2.py3".toList]
    | _ => [version]

/-! ### Hash sorting and entry formatting -/

/-- Python string comparison: lexicographic by code point. -/
def strLe : Str → Str → Bool
  | [], _ => true
  | _ :: _, [] => false
  | a :: as_, b :: bs => if a < b then true else if a = b then strLe as_ bs else false

/-- The sort relation used for --hash lines (sorted(..., key=lambda r: r["hash"])). -/
def hashLe (a b : Str) : Prop := strLe a b = true

instance : DecidableRel hashLe := fun a b => by
  unfold hashLe; infer_instance

/-- sorted(data["hashes"], key=lambda r: r["hash"]): a release dict carries
only its hash string at this point, so sorting the hash strings is the whole
of the Python sort. -/
def sortHashes (hashes : List Str) : List Str :=
  List.insertionSort hashLe hashes

/-- Format the run of --hash continuation lines; every line but the last gets
a trailing line-continuation backslash (i != len(hashes) - 1). -/
def hashLinesGo (algorithm : Str) (n : Nat) (i : Nat) : List Str → Str
  | [] => []
  | h :: rest =>
    padding ++ "--hash=".toList ++ algorithm ++ [':'] ++ h ++
      (if i ≠ n - 1 then [' ', '\\'] else []) ++ ['\n'] ++
      hashLinesGo algorithm n (i + 1) rest

/-- The new_lines text built per package inside run_packages: header line with
requirement, version and optional environment restriction, then the sorted
--hash lines. -/
def formatNewLines (req : Str) (version : Str) (restriction : Option Str)
    (algorithm : Str) (hashes : List Str) : Str :=
  let maybeRestriction : Str := match restriction with
    | none => []
    | some r => ';' :: ' ' :: r
  req ++ ['=', '='] ++ version ++ maybeRestriction ++ [' ', '\\', '\n'] ++
    hashLinesGo algorithm hashes.length 0 (sortHashes hashes)

/-! ### Package specs and the requirement capability -/

/-- Python exceptions surfacing from the modelled code paths. -/
inductive PyErr where
  | packageError (msg : Str)
  | packageNotFoundError (msg : Str)
  | noVersionsError (msg : Str)
  | assertionError
  | valueError
  | recursionError
  deriving Repr, DecidableEq

/-- Substring containment, for the "==" in spec tests. -/
def containsSub (needle s : Str) : Bool :=
  match s with
  | [] => startsWith needle []
  | _ :: rest => startsWith needle s || containsSub needle rest

/-- Split at the first occurrence of a character (str.split(c, 1)). -/
def splitOnceChar (c : Char) (s : Str) : Str × Option Str :=
  match s with
  | [] => ([], none)
  | x :: rest =>
    if x = c then ([], some rest)
    else
      let (a, b) := splitOnceChar c rest
      (x :: a, b)

/-- Split at the first occurrence of "==" (the source unpacks
spec.split("==") into two names, so any second occurrence raises an unpacking
ValueError, modelled by the error constructor). -/
def splitEqEq : Str → Option (Str × Str)
  | [] => none
  | '=' :: '=' :: rest => some ([], rest)
  | c :: rest =>
    match splitEqEq rest with
    | none => none
    | some (a, b) => some (c :: a, b)

/-- _explode_package_spec: split off an environment restriction at the first
semicolon (both sides stripped), then split package==version; a spec with no
"==" must not contain < or > (a bare assert in the source). -/
def _explode_package_spec (spec : Str) :
    Except PyErr (Str × Option Str × Option Str) := do
  let (s, restriction) :=
    match splitOnceChar ';' spec with
    | (_, none) => (spec, none)
    | (a, some b) => (pyStrip a, some (pyStrip b))
  if containsSub ['=', '='] s then
    match splitEqEq s with
    | some (package, version) =>
      if containsSub ['=', '='] version then .error .valueError
      else .ok (package, some version, restriction)
    | none => .error .valueError
  else
    if s.contains '>' || s.contains '<' then .error .assertionError
    else .ok (s, none, restriction)

/-- Requirement(package).name for the spec strings this tool builds: the
characters before any extras bracket.  (The packaging parser is an external
capability per the specification; this models it for well-formed names.) -/
def reqName (s : Str) : Str := s.takeWhile (fun c => c ≠ '[')

/-- The extras suffix of a spec (bracketed part, verbatim). -/
def reqExtras (s : Str) : Str := s.dropWhile (fun c => c ≠ '[')

/-- str(req) after req.name was overwritten with the index's canonical name:
canonical name plus the original extras text. -/
def renderReq (canonicalName original : Str) : Str :=
  canonicalName ++ reqExtras original

/-! ### run_packages -/

/-- Result of get_package_hashes for one spec: canonical name from the index,
the pinned or resolved version, and one hash per surviving release. -/
structure Resolved where
  package : Str
  version : Str
  hashes : List Str
  deriving Repr, DecidableEq

/-- File operations run_packages performs on the requirements file. -/
inductive FileOp where
  | read
  | write (content : Str)
  deriving Repr, DecidableEq

/-- Outcome of interactive_upgrade_request. -/
inductive IResp where
  | yes
  | no
  | all
  | quit
  deriving Repr, DecidableEq

/-- Non-network configuration of run_packages.  previousVersions maps the
spec-derived package name to its previously pinned specifier string (the
string form of the SpecifierSet recorded by run); answers models the
interactive decisions keyed by package name. -/
structure RunCfg where
  algorithm : Str
  dryRun : Bool
  interactive : Bool
  previousVersions : Option (Str → Option Str)
  answers : Str → IResp

/-- One accumulated edit: (package, previous_name, new_lines). -/
abbrev Edit := Str × Str × Str

/-- The per-spec loop of run_packages.  getHashes models get_package_hashes
(the network pipeline): it receives the requirement name and optional pinned
version and yields the canonical name, resolved version and hashes, or a
resolution error which propagates out of the loop.  Returns none when the
interactive prompt was answered with quit (the run exits with status 1). -/
def runLoop (cfg : RunCfg) (getHashes : Str → Option Str → Except PyErr Resolved)
    (yesToAll : Bool) (acc : List Edit) :
    List Str → Except PyErr (Option (List Edit))
  | [] => .ok (some acc)
  | spec :: rest => do
    let (package, version, restriction) ← _explode_package_spec spec
    let previous_version :=
      match cfg.previousVersions with
      | some pv => pv package
      | none => none
    let data ← getHashes (reqName package) version
    let canonical := data.package
    let previous_name := if cfg.previousVersions.isNone then canonical else package
    let newSpecifier : Str := '=' :: '=' :: data.version
    if previous_version = some newSpecifier then
      runLoop cfg getHashes yesToAll acc rest
    else
      let response :=
        if cfg.interactive then
          if yesToAll then IResp.yes else cfg.answers canonical
        else IResp.yes
      match response with
      | .no => runLoop cfg getHashes yesToAll acc rest
      | .quit => .ok none
      | r =>
        let newLines := formatNewLines (renderReq canonical package) data.version
          restriction cfg.algorithm data.hashes
        runLoop cfg getHashes (yesToAll || r = IResp.all)
          (acc ++ [(canonical, previous_name, newLines)]) rest

/-- run_packages over an explicit disk state: returns the exit status (or the
propagated resolution error) together with the trace of file operations on
the requirements file.  The file is opened only after the whole loop has
succeeded and produced at least one edit; in dry-run mode it is read but
never written. -/
def run_packages (cfg : RunCfg) (getHashes : Str → Option Str → Except PyErr Resolved)
    (specs : List Str) (disk : Str) : Except PyErr Nat × List FileOp :=
  match runLoop cfg getHashes false [] specs with
  | .error e => (.error e, [])
  | .ok none => (.ok 1, [])
  | .ok (some []) => (.ok 0, [])
  | .ok (some edits) =>
    let newContent := amend_requirements_content disk edits
    if cfg.dryRun then (.ok 0, [.read])
    else (.ok 0, [.read, .write newContent])

/-- The requirements file content after a trace of file operations. -/
def diskAfter (disk : Str) (ops : List FileOp) : Str :=
  ops.foldl (fun d op => match op with | .read => d | .write c => c) disk

/-! ### _download and get_package_data -/

/-- One HTTP exchange: urlopen either raises HTTPError(code) or yields a
response with a status code, a Location header value ("" when the header is
absent, as headers.get("location", "") produces) and a body. -/
inductive HttpResponse where
  | raises (code : Nat)
  | resp (status : Nat) (location : Str) (body : Str)

/-- cgi.parse_header applied to a Location value: the part before any
parameter delimiter. -/
def parseHeaderValue (v : Str) : Str := v.takeWhile (fun c => c ≠ ';')

/-- Decimal rendering of a number, for message formatting. -/
def natToStr (n : Nat) : Str := Nat.toDigits 10 n

/-- _download over an abstract web: classify the outcome per status code,
following redirects through the Location header.  The fuel bounds the
redirect recursion (the Python original recurses unboundedly; exhausted fuel
models the interpreter's recursion limit). -/
def download (web : Str → HttpResponse) : Nat → Str → Except PyErr Str
  | 0, _ => .error .recursionError
  | fuel + 1, url =>
    match web url with
    | .raises code =>
      if code = 404 then .error (.packageNotFoundError url)
      else .error (.packageError ("Download error. ".toList ++ natToStr code ++ " on ".toList ++ url))
    | .resp status location body =>
      if 301 ≤ status ∧ status < 400 then
        let loc := parseHeaderValue location
        if loc = [] then
          .error (.packageError ("No Location header on ".toList ++ url))
        else download web fuel loc
      else if status = 404 then .error (.packageNotFoundError url)
      else if status ≠ 200 then
        .error (.packageError ("Download error. ".toList ++ natToStr status ++ " on ".toList ++ url))
      else .ok body

/-- The decoded JSON body of a package metadata response. releases = none
models a JSON object with no "releases" key; some rs is the version → release
hashes map in document order.  Each release is its digest map restricted to
what the claims need: the digest for the requested algorithm, if present. -/
structure PackageData where
  releases : Option (List (Str × List Resolved))
  infoName : Str
  infoVersion : Str

/-- urljoin(base, path) for the absolute-path references the source builds:
keep the scheme and authority of the base, replace the path. -/
def urljoin (base path : Str) : Str :=
  if containsSub "://".toList base then
    let rec split : Str → Str
      | ':' :: '/' :: '/' :: rest => ':' :: '/' :: '/' :: rest.takeWhile (fun c => c ≠ '/')
      | c :: rest => c :: split rest
      | [] => []
    split base ++ path
  else path

/-- get_package_data: fetch the metadata URL, decode it (json.loads is the
external decode capability) and reject bodies with no releases key. -/
def get_package_data (web : Str → HttpResponse) (loads : Str → Except PyErr PackageData)
    (fuel : Nat) (package indexUrl : Str) : Except PyErr PackageData := do
  let url := urljoin indexUrl ("/pypi/".toList ++ package ++ "/json".toList)
  let content ← download web fuel url
  let data ← loads content
  if data.releases = none then
    .error (.packageError "package JSON is not sane".toList)
  else .ok data

/-! ### get_latest_version -/

/-- The message raised when no eligible version exists. -/
def noValidVersionMsg (includePrereleases : Bool) (countPrereleases : Nat) : Str :=
  "No valid version found.".toList ++
    (if !includePrereleases && countPrereleases ≠ 0 then
      " But, found ".toList ++ natToStr countPrereleases ++
        " pre-releases. Consider running again with the --include-prereleases flag.".toList
    else [])

/-- Descending order on (parsed version, version string) pairs used by
all_versions.sort(reverse=True). -/
def versionPairGe {V : Type} [LinearOrder V] (a b : V × Str) : Prop :=
  b.1 < a.1 ∨ (a.1 = b.1 ∧ strLe b.2 a.2 = true)

instance {V : Type} [LinearOrder V] : DecidableRel (@versionPairGe V _) := fun a b => by
  unfold versionPairGe; infer_instance

/-- get_latest_version, parameterised by the external version capability:
parse compares versions semantically and isPrerelease tests prerelease-ness
(packaging.version.parse is a black-box capability per the specification).
With no (or an empty) releases map, fall back to info.version; otherwise keep
the versions admitted by the prerelease policy, counting the excluded
prereleases, and fail when none survive. -/
def get_latest_version {V : Type} [LinearOrder V] (parse : Str → V)
    (isPrerelease : V → Bool) (data : PackageData) (includePrereleases : Bool) :
    Except PyErr Str :=
  match data.releases with
  | none => .ok data.infoVersion
  | some [] => .ok data.infoVersion
  | some rel =>
    let versions := rel.map Prod.fst
    let allVersions := (versions.filter
      (fun v => !isPrerelease (parse v) || includePrereleases)).map
      (fun v => (parse v, v))
    let countPrereleases := (versions.filter
      (fun v => isPrerelease (parse v) && !includePrereleases)).length
    let sorted := List.insertionSort versionPairGe allVersions
    match sorted with
    | [] => .error (.noVersionsError (noValidVersionMsg includePrereleases countPrereleases))
    | best :: _ => .ok best.2

/-- The package portion of a spec: the text before the first semicolon
(stripped when a semicolon is present), exactly as the first two lines of
_explode_package_spec compute it. -/
def specPackagePortion (spec : Str) : Str :=
  match splitOnceChar ';' spec with
  | (_, none) => spec
  | (a, some _) => pyStrip a

/-- Characters that can occur in a PEP 503 package name. -/
def isNameChar (c : Char) : Bool := c.isAlphanum || c = '-' || c = '_' || c = '.'

/-!
## Lemmas and claim theorems
-/

theorem strLe_total (a b : Str) : strLe a b = true ∨ strLe b a = true := by
  induction a generalizing b with
  | nil => left; rfl
  | cons x xs ih =>
    cases b with
    | nil => right; rfl
    | cons y ys =>
      rcases lt_trichotomy x y with h | h | h
      · left; simp [strLe, h]
      · subst h
        rcases ih ys with h2 | h2
        · left; simp [strLe, h2]
        · right; simp [strLe, h2]
      · right; simp [strLe, h]

theorem strLe_trans {a b c : Str} (h1 : strLe a b = true) (h2 : strLe b c = true) :
    strLe a c = true := by
  induction a generalizing b c with
  | nil => rfl
  | cons x xs ih =>
    cases b with
    | nil => simp [strLe] at h1
    | cons y ys =>
      cases c with
      | nil => simp [strLe] at h2
      | cons z zs =>
        simp only [strLe] at h1 h2 ⊢
        by_cases hxy : x < y
        · by_cases hyz : y < z
          · rw [if_pos (lt_trans hxy hyz)]
          · by_cases hyz2 : y = z
            · subst hyz2; rw [if_pos hxy]
            · rw [if_neg hyz, if_neg hyz2] at h2; exact absurd h2 (by simp)
        · by_cases hxy2 : x = y
          · subst hxy2
            rw [if_neg hxy, if_pos rfl] at h1
            by_cases hxz : x < z
            · rw [if_pos hxz]
            · by_cases hxz2 : x = z
              · subst hxz2
                rw [if_neg hxz, if_pos rfl] at h2 ⊢
                exact ih h1 h2
              · rw [if_neg hxz, if_neg hxz2] at h2; exact absurd h2 (by simp)
          · rw [if_neg hxy, if_neg hxy2] at h1; exact absurd h1 (by simp)

theorem strLe_antisymm {a b : Str} (h1 : strLe a b = true) (h2 : strLe b a = true) :
    a = b := by
  induction a generalizing b with
  | nil =>
    cases b with
    | nil => rfl
    | cons y ys => simp [strLe] at h2
  | cons x xs ih =>
    cases b with
    | nil => simp [strLe] at h1
    | cons y ys =>
      simp only [strLe] at h1 h2
      by_cases hxy : x < y
      · by_cases hyx : y < x
        · exact absurd (lt_trans hxy hyx) (lt_irrefl x)
        · by_cases hyx2 : y = x
          · exact absurd hxy (by rw [hyx2]; exact lt_irrefl x)
          · rw [if_neg hyx, if_neg hyx2] at h2; exact absurd h2 (by simp)
      · by_cases hxy2 : x = y
        · subst hxy2
          rw [if_neg hxy, if_pos rfl] at h1
          rw [if_neg hxy, if_pos rfl] at h2
          rw [ih h1 h2]
        · rw [if_neg hxy, if_neg hxy2] at h1; exact absurd h1 (by simp)

instance : IsTotal Str hashLe := ⟨fun a b => strLe_total a b⟩

instance : IsTrans Str hashLe := ⟨fun _ _ _ h1 h2 => strLe_trans h1 h2⟩

instance : IsAntisymm Str hashLe := ⟨fun _ _ h1 h2 => strLe_antisymm h1 h2⟩

theorem sortHashes_sorted (hs : List Str) : List.Sorted hashLe (sortHashes hs) :=
  List.sorted_insertionSort hashLe hs

theorem sortHashes_perm (hs : List Str) : List.Perm (sortHashes hs) hs :=
  List.perm_insertionSort hashLe hs

theorem sortHashes_perm_invariant {hs hs' : List Str} (h : List.Perm hs hs') :
    sortHashes hs = sortHashes hs' :=
  List.eq_of_perm_of_sorted
    (((sortHashes_perm hs).trans h).trans (sortHashes_perm hs').symm)
    (sortHashes_sorted hs) (sortHashes_sorted hs')

/-- C6 (code bug): the short-version pattern r"^\d\.\d$" admits only a
single-digit minor, so expand_python_version("3.10") falls into the
no-match branch and returns just ["3.10"]; it does not equal (even as a set)
the full expansion the claim, the docstring and the repository's own test
(tests/test_cli.py, test_expand_python_version) require. -/
theorem C6_expand_python_version_3_10 :
    matchesShortVersion "3.10".toList = false ∧
    expand_python_version "3.10".toList = ["3.10".toList] ∧
    setEqStr (expand_python_version "3.10".toList)
      ["3.10".toList, "cp310".toList, "py3".toList, "py3.10".toList,
       "py310".toList, "source".toList, "py2.py3".toList] = false := by
  refine ⟨rfl, rfl, rfl⟩

/-- C4 counterexample: resolution performs no deduplication, so two releases
carrying the same digest are emitted as two identical --hash lines; the
sorted hash sequence for input ["aa", "aa"] keeps both copies. -/
theorem C4_counterexample_duplicate_hashes :
    sortHashes ["aa".toList, "aa".toList] = ["aa".toList, "aa".toList] ∧
    ¬ (sortHashes ["aa".toList, "aa".toList]).Nodup ∧
    formatNewLines "pkg".toList "1.0".toList none "sha256".toList
        ["aa".toList, "aa".toList] =
      "pkg==1.0 \\\n    --hash=sha256:aa \\\n    --hash=sha256:aa\n".toList := by
  refine ⟨rfl, by decide, rfl⟩

/-- C4 (amended): the emitted --hash sequence is sorted lexicographically by
digest string and is invariant under any reordering of the releases by the
index (so re-running resolution for an unchanged version reproduces the
formatted entry byte for byte), but duplicates present in the release list
are preserved, not removed. -/
theorem C4_hashes_sorted_and_order_invariant (hs hs' : List Str)
    (h : List.Perm hs hs') :
    List.Sorted hashLe (sortHashes hs) ∧
    sortHashes hs = sortHashes hs' ∧
    List.Perm (sortHashes hs) hs ∧
    ∀ req version restriction algorithm,
      formatNewLines req version restriction algorithm hs =
        formatNewLines req version restriction algorithm hs' := by
  refine ⟨sortHashes_sorted hs, sortHashes_perm_invariant h, sortHashes_perm hs, ?_⟩
  intro req version restriction algorithm
  unfold formatNewLines
  rw [sortHashes_perm_invariant h, h.length_eq]

/-- Witness for C4_hashes_sorted_and_order_invariant at a permuted pair. -/
theorem C4_hashes_sorted_and_order_invariant_witness :
    List.Sorted hashLe (sortHashes ["b".toList, "a".toList]) ∧
    sortHashes ["b".toList, "a".toList] = sortHashes ["a".toList, "b".toList] ∧
    List.Perm (sortHashes ["b".toList, "a".toList]) ["b".toList, "a".toList] ∧
    ∀ req version restriction algorithm,
      formatNewLines req version restriction algorithm ["b".toList, "a".toList] =
        formatNewLines req version restriction algorithm ["a".toList, "b".toList] :=
  C4_hashes_sorted_and_order_invariant ["b".toList, "a".toList]
    ["a".toList, "b".toList] (List.Perm.swap "a".toList "b".toList [])

/-- C10 counterexample: a spec whose comparison operator sits in the
environment-marker portion ("foo; python_version < ...") contains the
character < and no "==", yet _explode_package_spec succeeds instead of
failing the assertion, because the assert only inspects the package portion
after the split at the semicolon. -/
theorem C10_counterexample_marker_spec :
    _explode_package_spec "foo; python_version < 3".toList =
      .ok ("foo".toList, none, some "python_version < 3".toList) := by
  rfl

/-- C10 (amended): for every spec whose package portion (the text before the
first semicolon, stripped) contains < or > but no "==", the spec is rejected
with a bare AssertionError, which is none of the documented error types
(PackageError, PackageNotFoundError, NoVersionsError). -/
theorem C10_range_specifier_assertion (spec : Str)
    (hop : ((specPackagePortion spec).contains '>' ||
            (specPackagePortion spec).contains '<') = true)
    (heq : containsSub ['=', '='] (specPackagePortion spec) = false) :
    _explode_package_spec spec = .error .assertionError := by
  unfold _explode_package_spec
  unfold specPackagePortion at hop heq
  rcases hsplit : splitOnceChar ';' spec with ⟨a, b⟩
  cases b with
  | none =>
    rw [hsplit] at hop heq
    simp only [hsplit, heq, Bool.false_eq_true, if_false, hop, if_true]
  | some r =>
    rw [hsplit] at hop heq
    simp only [hsplit, heq, Bool.false_eq_true, if_false, hop, if_true]

/-- Witness for C10_range_specifier_assertion on the spec "foo>=1.0". -/
theorem C10_range_specifier_assertion_witness :
    _explode_package_spec "foo>=1.0".toList = .error .assertionError :=
  C10_range_specifier_assertion "foo>=1.0".toList (by rfl) (by rfl)

/-- C8: classification of metadata-fetch failures.  An HTTPError or response
status of 404 raises PackageNotFoundError; a redirect status with an absent
Location header raises PackageError; an HTTPError with any other code, or
any other non-success status, raises PackageError; and a decoded body with
no releases key makes get_package_data raise PackageError. -/
theorem C8_download_error_classification :
    (∀ web fuel url, web url = HttpResponse.raises 404 →
      download web (fuel + 1) url = .error (.packageNotFoundError url)) ∧
    (∀ web fuel url status location body,
      web url = HttpResponse.resp status location body → status = 404 →
      download web (fuel + 1) url = .error (.packageNotFoundError url)) ∧
    (∀ web fuel url status location body,
      web url = HttpResponse.resp status location body →
      301 ≤ status → status < 400 → parseHeaderValue location = [] →
      ∃ msg, download web (fuel + 1) url = .error (.packageError msg)) ∧
    (∀ web fuel url code, web url = HttpResponse.raises code → code ≠ 404 →
      ∃ msg, download web (fuel + 1) url = .error (.packageError msg)) ∧
    (∀ web fuel url status location body,
      web url = HttpResponse.resp status location body →
      ¬(301 ≤ status ∧ status < 400) → status ≠ 404 → status ≠ 200 →
      ∃ msg, download web (fuel + 1) url = .error (.packageError msg)) ∧
    (∀ web loads fuel package indexUrl body data,
      download web fuel (urljoin indexUrl ("/pypi/".toList ++ package ++ "/json".toList)) = .ok body →
      loads body = .ok data → data.releases = none →
      get_package_data web loads fuel package indexUrl =
        .error (.packageError "package JSON is not sane".toList)) := by
  refine ⟨?_, ?_, ?_, ?_, ?_, ?_⟩
  · intro web fuel url hweb
    simp [download, hweb]
  · intro web fuel url status location body hweb h404
    subst h404
    simp only [download, hweb]
    rw [if_neg (by omega)]
    simp
  · intro web fuel url status location body hweb h1 h2 hloc
    refine ⟨"No Location header on ".toList ++ url, ?_⟩
    simp only [download, hweb]
    rw [if_pos ⟨h1, h2⟩]
    simp [hloc]
  · intro web fuel url code hweb hne
    refine ⟨"Download error. ".toList ++ natToStr code ++ " on ".toList ++ url, ?_⟩
    simp only [download, hweb]
    rw [if_neg hne]
  · intro web fuel url status location body hweb hr h404 h200
    refine ⟨"Download error. ".toList ++ natToStr status ++ " on ".toList ++ url, ?_⟩
    simp only [download, hweb]
    rw [if_neg hr, if_neg h404, if_pos h200]
  · intro web loads fuel package indexUrl body data hdl hloads hrel
    simp only [get_package_data]
    rw [hdl]
    simp [bind, Except.bind, hloads, hrel]

/-- Witness for C8_download_error_classification, instantiating every
conjunct on a concrete web and decoder. -/
theorem C8_download_error_classification_witness :
    download (fun _ => HttpResponse.raises 404) 1 "u".toList =
      .error (.packageNotFoundError "u".toList) ∧
    download (fun _ => HttpResponse.resp 404 [] []) 1 "u".toList =
      .error (.packageNotFoundError "u".toList) ∧
    (∃ msg, download (fun _ => HttpResponse.resp 302 [] []) 1 "u".toList =
      .error (.packageError msg)) ∧
    (∃ msg, download (fun _ => HttpResponse.raises 500) 1 "u".toList =
      .error (.packageError msg)) ∧
    (∃ msg, download (fun _ => HttpResponse.resp 503 [] []) 1 "u".toList =
      .error (.packageError msg)) ∧
    get_package_data (fun _ => HttpResponse.resp 200 [] "body".toList)
        (fun _ => .ok ⟨none, [], []⟩) 1 "p".toList "https://x/".toList =
      .error (.packageError "package JSON is not sane".toList) := by
  refine ⟨?_, ?_, ?_, ?_, ?_, ?_⟩
  · exact C8_download_error_classification.1 _ 0 _ rfl
  · exact C8_download_error_classification.2.1 _ 0 _ 404 [] [] rfl rfl
  · exact C8_download_error_classification.2.2.1 _ 0 _ 302 [] [] rfl (by omega) (by omega) rfl
  · exact C8_download_error_classification.2.2.2.1 _ 0 _ 500 rfl (by omega)
  · exact C8_download_error_classification.2.2.2.2.1 _ 0 _ 503 [] [] rfl (by omega)
      (by omega) (by omega)
  · exact C8_download_error_classification.2.2.2.2.2 _ _ 1 _ _ "body".toList _ rfl rfl rfl

theorem startsWith_self_append (s t : Str) : startsWith s (s ++ t) = true := by
  induction s with
  | nil => rfl
  | cons c cs ih => simp [startsWith, ih]

theorem containsSub_self_append (s t : Str) : containsSub s (s ++ t) = true := by
  cases hs : s ++ t with
  | nil =>
    have : s = [] := by
      cases s with
      | nil => rfl
      | cons a l => simp at hs
    subst this
    rfl
  | cons c rest =>
    unfold containsSub
    rw [← hs, startsWith_self_append]
    simp

theorem containsSub_append_left (needle a b : Str)
    (h : containsSub needle b = true) : containsSub needle (a ++ b) = true := by
  induction a with
  | nil => simpa using h
  | cons c cs ih => simp [containsSub, ih]

/-- C9: with a non-empty releases map and prereleases excluded,
get_latest_version errors exactly when every listed version is a prerelease;
in that case (so whenever at least one prerelease was excluded) the error is
NoVersionsError carrying the message that counts the excluded prereleases
and suggests the --include-prereleases flag. -/
theorem C9_no_versions_error {V : Type} [LinearOrder V] (parse : Str → V)
    (isPrerelease : V → Bool) (data : PackageData)
    (rel : List (Str × List Resolved)) (hrel : data.releases = some rel)
    (hne : rel ≠ []) :
    ((∃ m, get_latest_version parse isPrerelease data false =
        .error (.noVersionsError m)) ↔
      ∀ p ∈ rel, isPrerelease (parse p.1) = true) ∧
    ((∀ p ∈ rel, isPrerelease (parse p.1) = true) →
      get_latest_version parse isPrerelease data false =
        .error (.noVersionsError (noValidVersionMsg false rel.length)) ∧
      containsSub (natToStr rel.length) (noValidVersionMsg false rel.length) = true ∧
      containsSub "--include-prereleases".toList (noValidVersionMsg false rel.length) = true) := by
  obtain ⟨p0, rel', rfl⟩ := List.exists_cons_of_ne_nil hne
  have hunfold : get_latest_version parse isPrerelease data false =
      (let versions := (p0 :: rel').map Prod.fst
       let allVersions := (versions.filter
         (fun v => !isPrerelease (parse v) || false)).map (fun v => (parse v, v))
       let countPrereleases := (versions.filter
         (fun v => isPrerelease (parse v) && !false)).length
       let sorted := List.insertionSort versionPairGe allVersions
       match sorted with
       | [] => .error (.noVersionsError (noValidVersionMsg false countPrereleases))
       | best :: _ => .ok best.2) := by
    unfold get_latest_version
    rw [hrel]
  have hsort_nil : ∀ l : List (V × Str),
      List.insertionSort versionPairGe l = [] ↔ l = [] := by
    intro l
    constructor
    · intro h
      have := List.perm_insertionSort versionPairGe l
      rw [h] at this
      exact (List.Perm.nil_eq this).symm
    · intro h; rw [h]; rfl
  have hfilter : ∀ (vs : List Str),
      (vs.filter (fun v => !isPrerelease (parse v) || false)) = [] ↔
        ∀ v ∈ vs, isPrerelease (parse v) = true := by
    intro vs
    rw [List.filter_eq_nil]
    constructor
    · intro h v hv
      have := h v hv
      simpa using this
    · intro h v hv
      simpa using h v hv
  constructor
  · constructor
    · intro ⟨m, hm⟩
      rw [hunfold] at hm
      simp only at hm
      rcases hsorted : List.insertionSort versionPairGe
          ((((p0 :: rel').map Prod.fst).filter
            (fun v => !isPrerelease (parse v) || false)).map (fun v => (parse v, v))) with
        _ | ⟨best, rest⟩
      · have hall : (((p0 :: rel').map Prod.fst).filter
            (fun v => !isPrerelease (parse v) || false)) = [] := by
          have := (hsort_nil _).mp hsorted
          exact List.map_eq_nil.mp this
        intro p hp
        exact (hfilter _).mp hall p.1 (List.mem_map_of_mem Prod.fst hp)
      · rw [hsorted] at hm
        exact absurd hm (by simp)
    · intro hall
      rw [hunfold]
      simp only
      have hfil : (((p0 :: rel').map Prod.fst).filter
          (fun v => !isPrerelease (parse v) || false)) = [] := by
        rw [hfilter]
        intro v hv
        obtain ⟨p, hp, rfl⟩ := List.mem_map.mp hv
        exact hall p hp
      rw [hfil]
      simp only [List.map_nil]
      exact ⟨_, rfl⟩
  · intro hall
    have hfil : (((p0 :: rel').map Prod.fst).filter
        (fun v => !isPrerelease (parse v) || false)) = [] := by
      rw [hfilter]
      intro v hv
      obtain ⟨p, hp, rfl⟩ := List.mem_map.mp hv
      exact hall p hp
    have hcount : (((p0 :: rel').map Prod.fst).filter
        (fun v => isPrerelease (parse v) && !false)).length = (p0 :: rel').length := by
      have : (((p0 :: rel').map Prod.fst).filter
          (fun v => isPrerelease (parse v) && !false)) = (p0 :: rel').map Prod.fst := by
        rw [List.filter_eq_self]
        intro v hv
        obtain ⟨p, hp, rfl⟩ := List.mem_map.mp hv
        simp [hall p hp]
      rw [this, List.length_map]
    refine ⟨?_, ?_, ?_⟩
    · rw [hunfold]
      simp only
      rw [hfil]
      simp only [List.map_nil]
      rw [show List.insertionSort versionPairGe ([] : List (V × Str)) = [] from rfl]
      rw [hcount]
    · unfold noValidVersionMsg
      have hlen : (p0 :: rel').length ≠ 0 := by simp
      rw [if_pos (by simp)]
      rw [show "No valid version found.".toList ++
          (" But, found ".toList ++ natToStr (p0 :: rel').length ++
            " pre-releases. Consider running again with the --include-prereleases flag.".toList) =
          ("No valid version found.".toList ++ " But, found ".toList) ++
            (natToStr (p0 :: rel').length ++
              " pre-releases. Consider running again with the --include-prereleases flag.".toList) by
        simp [List.append_assoc]]
      exact containsSub_append_left _ _ _ (containsSub_self_append _ _)
    · unfold noValidVersionMsg
      rw [if_pos (by simp)]
      have hflag : containsSub "--include-prereleases".toList
          " pre-releases. Consider running again with the --include-prereleases flag.".toList = true := by
        decide
      refine containsSub_append_left _ _ _ ?_
      refine containsSub_append_left _ _ _ ?_
      exact hflag

/-- Witness for C9_no_versions_error: a two-version map whose versions are
both prereleases under the instantiated capability. -/
theorem C9_no_versions_error_witness :
    ((∃ m, get_latest_version (fun s => s.length) (fun _ => true)
        ⟨some [("1.0a1".toList, []), ("2.0b2".toList, [])], "p".toList, "1".toList⟩ false =
        .error (.noVersionsError m)) ↔
      ∀ p ∈ [(("1.0a1".toList : Str), ([] : List Resolved)), ("2.0b2".toList, [])],
        (fun (_ : Nat) => true) ((fun (s : Str) => s.length) p.1) = true) ∧
    ((∀ p ∈ [(("1.0a1".toList : Str), ([] : List Resolved)), ("2.0b2".toList, [])],
        (fun (_ : Nat) => true) ((fun (s : Str) => s.length) p.1) = true) →
      get_latest_version (fun s => s.length) (fun _ => true)
        ⟨some [("1.0a1".toList, []), ("2.0b2".toList, [])], "p".toList, "1".toList⟩ false =
        .error (.noVersionsError (noValidVersionMsg false 2)) ∧
      containsSub (natToStr 2) (noValidVersionMsg false 2) = true ∧
      containsSub "--include-prereleases".toList (noValidVersionMsg false 2) = true) :=
  C9_no_versions_error (fun s => s.length) (fun _ => true)
    ⟨some [("1.0a1".toList, []), ("2.0b2".toList, [])], "p".toList, "1".toList⟩
    [("1.0a1".toList, []), ("2.0b2".toList, [])] rfl (by simp)

theorem runLoop_fail_no_edits (cfg : RunCfg)
    (getHashes : Str → Option Str → Except PyErr Resolved) (spec : Str)
    (p : Str) (v : Option Str) (r : Option Str) (e : PyErr)
    (hex : _explode_package_spec spec = .ok (p, v, r))
    (hfail : getHashes (reqName p) v = .error e) :
    ∀ specs, spec ∈ specs → ∀ yesToAll acc res,
      runLoop cfg getHashes yesToAll acc specs ≠ .ok (some res) := by
  intro specs
  induction specs generalizing spec p v r with
  | nil => intro h; exact absurd h (List.not_mem_nil spec)
  | cons s rest ih =>
    intro hmem yesToAll acc res hloop
    rcases List.mem_cons.mp hmem with heq | hmem'
    · subst heq
      simp only [runLoop, hex, bind, Except.bind, hfail] at hloop
      exact Except.noConfusion hloop
    · rcases hex2 : _explode_package_spec s with e2 | ⟨p2, v2, r2⟩
      · simp only [runLoop, hex2, bind, Except.bind] at hloop
        exact Except.noConfusion hloop
      · rcases hgh2 : getHashes (reqName p2) v2 with e2 | data2
        · simp only [runLoop, hex2, bind, Except.bind, hgh2] at hloop
          exact Except.noConfusion hloop
        · simp only [runLoop, hex2, bind, Except.bind, hgh2] at hloop
          split at hloop
          · exact ih spec p v r hex hfail hmem' yesToAll acc res hloop
          · split at hloop
            all_goals first
              | exact ih spec p v r hex hfail hmem' _ _ res hloop
              | simp at hloop

/-- C1: atomicity of run_packages.  If resolving any one spec of the batch
fails, the run performs no file operation at all: nothing is written, and the
requirements file after the call is byte-identical to its content before,
even when earlier specs of the batch resolved successfully. -/
theorem C1_run_packages_atomic (cfg : RunCfg)
    (getHashes : Str → Option Str → Except PyErr Resolved)
    (specs : List Str) (disk : Str) (spec : Str)
    (p : Str) (v : Option Str) (r : Option Str) (e : PyErr)
    (hmem : spec ∈ specs)
    (hex : _explode_package_spec spec = .ok (p, v, r))
    (hfail : getHashes (reqName p) v = .error e) :
    (run_packages cfg getHashes specs disk).2 = [] ∧
    diskAfter disk (run_packages cfg getHashes specs disk).2 = disk := by
  have hops : (run_packages cfg getHashes specs disk).2 = [] := by
    unfold run_packages
    rcases hrl : runLoop cfg getHashes false [] specs with e' | o
    · rfl
    · rcases o with _ | edits
      · rfl
      · exact absurd hrl (runLoop_fail_no_edits cfg getHashes spec p v r e hex hfail
          specs hmem false [] edits)
  exact ⟨hops, by rw [hops]; rfl⟩

/-- Witness for C1_run_packages_atomic: a two-spec batch whose second spec
fails to resolve with PackageNotFoundError after the first resolved. -/
theorem C1_run_packages_atomic_witness :
    (run_packages
        ⟨"sha256".toList, false, false, none, fun _ => IResp.yes⟩
        (fun name _ => if name = "bad".toList
          then .error (.packageNotFoundError "bad".toList)
          else .ok ⟨"good".toList, "1.0".toList, ["h".toList]⟩)
        ["good".toList, "bad".toList] "before".toList).2 = [] ∧
    diskAfter "before".toList
      (run_packages
        ⟨"sha256".toList, false, false, none, fun _ => IResp.yes⟩
        (fun name _ => if name = "bad".toList
          then .error (.packageNotFoundError "bad".toList)
          else .ok ⟨"good".toList, "1.0".toList, ["h".toList]⟩)
        ["good".toList, "bad".toList] "before".toList).2 = "before".toList :=
  C1_run_packages_atomic _ _ _ _ "bad".toList "bad".toList none none
    (.packageNotFoundError "bad".toList)
    (by simp) rfl (by rfl)

theorem runLoop_all_skipped (cfg : RunCfg)
    (getHashes : Str → Option Str → Except PyErr Resolved)
    (pv : Str → Option Str) (hpv : cfg.previousVersions = some pv) :
    ∀ specs, (∀ spec ∈ specs, ∃ p v r res,
        _explode_package_spec spec = .ok (p, v, r) ∧
        getHashes (reqName p) v = .ok res ∧
        pv p = some ('=' :: '=' :: res.version)) →
      ∀ yesToAll acc, runLoop cfg getHashes yesToAll acc specs = .ok (some acc) := by
  intro specs
  induction specs with
  | nil => intro _ yesToAll acc; rfl
  | cons s rest ih =>
    intro hall yesToAll acc
    obtain ⟨p, v, r, res, hex, hgh, hprev⟩ := hall s (List.mem_cons_self s rest)
    simp only [runLoop, hex, bind, Except.bind, hgh, hpv, hprev]
    rw [if_pos trivial]
    exact ih (fun sp hsp => hall sp (List.mem_cons_of_mem s hsp)) yesToAll acc

/-- C7: in update-all mode, when every spec's newly resolved version equals
its previously recorded pinned specifier, the loop produces no edit at all
and run_packages returns exit status 0 with an empty file-operation trace:
the requirements document is never opened for reading or writing. -/
theorem C7_update_all_no_edits (cfg : RunCfg)
    (getHashes : Str → Option Str → Except PyErr Resolved)
    (specs : List Str) (disk : Str) (pv : Str → Option Str)
    (hpv : cfg.previousVersions = some pv)
    (hall : ∀ spec ∈ specs, ∃ p v r res,
        _explode_package_spec spec = .ok (p, v, r) ∧
        getHashes (reqName p) v = .ok res ∧
        pv p = some ('=' :: '=' :: res.version)) :
    run_packages cfg getHashes specs disk = (.ok 0, []) := by
  unfold run_packages
  rw [runLoop_all_skipped cfg getHashes pv hpv specs hall false []]

theorem matchName_some {name s r : Str} (h : matchName name s = some r) :
    r = s.drop name.length ∧ name.length ≤ s.length := by
  induction name generalizing s with
  | nil =>
    simp only [matchName] at h
    cases h
    exact ⟨rfl, Nat.zero_le _⟩
  | cons p ps ih =>
    cases s with
    | nil => simp [matchName] at h
    | cons c cs =>
      simp only [matchName] at h
      by_cases hc : charMatches p c = true
      · rw [if_pos hc] at h
        obtain ⟨hr, hlen⟩ := ih h
        exact ⟨hr, by simpa using Nat.succ_le_succ hlen⟩
      · rw [if_neg hc] at h
        exact Option.noConfusion h

theorem dropWhile_append_blank (ws t : Str) (hws : ∀ c ∈ ws, isBlankChar c = true) :
    (ws ++ t).dropWhile isBlankChar = t.dropWhile isBlankChar := by
  induction ws with
  | nil => rfl
  | cons c cs ih =>
    have hc := hws c (List.mem_cons_self c cs)
    simp only [List.cons_append, List.dropWhile_cons, hc, if_true]
    exact ih (fun x hx => hws x (List.mem_cons_of_mem c hx))

theorem isNameChar_ne_eq_bracket {c : Char} (h : isNameChar c = true) :
    c ≠ '=' ∧ c ≠ '[' ∧ isBlankChar c = false := by
  refine ⟨?_, ?_, ?_⟩
  · intro hc; subst hc; exact absurd h (by decide)
  · intro hc; subst hc; exact absurd h (by decide)
  · by_cases hsp : c = ' '
    · subst hsp; exact absurd h (by decide)
    · by_cases htab : c = '\t'
      · subst htab; exact absurd h (by decide)
      · simp [isBlankChar, hsp, htab]

/-- C5 (amended): the header pattern for an edit of package P2 can never
match the header line of a package P1 of which P2 is a proper substring,
whatever follows the name on that line — a bare "==version", a bracketed
extras group "[extras]==version", or anything else: after the name pattern
consumes the first characters of P1, the next character is a name
character, never the required bracket or equals sign, so the match fails
before the tail of the line is even examined.  (The original claim, that
P1's whole entry is never modified, fails: a continuation line inside P1's
entry that itself looks like a header for P2 is matched and rewritten, see
the counterexample.) -/
theorem C5_prefix_name_never_matches_header (p1 p2 ws tail : Str) (a b : Str)
    (hdecomp : p1 = a ++ p2 ++ b) (hne : p2 ≠ p1)
    (hchars : ∀ c ∈ p1, isNameChar c = true)
    (hws : ∀ c ∈ ws, isBlankChar c = true) :
    lineMatches p2 (ws ++ p1 ++ tail) = false := by
  have hlen : p2.length < p1.length := by
    have hl : p1.length = a.length + p2.length + b.length := by
      rw [hdecomp, List.length_append, List.length_append]
    by_cases hab : a.length + b.length = 0
    · exfalso
      have ha : a = [] := List.length_eq_zero.mp (by omega)
      have hb : b = [] := List.length_eq_zero.mp (by omega)
      rw [ha, hb] at hdecomp
      simp at hdecomp
      exact hne hdecomp.symm
    · omega
  have hp1ne : p1 ≠ [] := by
    intro hnil
    rw [hnil] at hlen
    simp at hlen
  obtain ⟨c1, p1', rfl⟩ := List.exists_cons_of_ne_nil hp1ne
  have hdw : ((ws ++ (c1 :: p1') ++ tail).dropWhile isBlankChar) =
      (c1 :: p1') ++ tail := by
    rw [List.append_assoc, dropWhile_append_blank ws _ hws]
    have hc1 : isBlankChar c1 = false :=
      (isNameChar_ne_eq_bracket (hchars c1 (List.mem_cons_self c1 p1'))).2.2
    simp [List.dropWhile_cons, hc1]
  unfold lineMatches
  rw [hdw]
  rcases hm : matchName p2 ((c1 :: p1') ++ tail) with _ | r
  · rfl
  · obtain ⟨hr, _⟩ := matchName_some hm
    have hdrop : ((c1 :: p1') ++ tail).drop p2.length =
        (c1 :: p1').drop p2.length ++ tail :=
      List.drop_append_of_le_length (Nat.le_of_lt hlen)
    have hdne : (c1 :: p1').drop p2.length ≠ [] := by
      intro hnil
      have hlen2 : ((c1 :: p1').drop p2.length).length = (c1 :: p1').length - p2.length :=
        List.length_drop _ _
      rw [hnil] at hlen2
      simp only [List.length_nil] at hlen2
      omega
    obtain ⟨c, d', hd⟩ := List.exists_cons_of_ne_nil hdne
    have hcmem : c ∈ c1 :: p1' := by
      have : c ∈ (c1 :: p1').drop p2.length := by rw [hd]; exact List.mem_cons_self c d'
      exact List.drop_subset _ _ this
    obtain ⟨hceq, hcbr, _⟩ := isNameChar_ne_eq_bracket (hchars c hcmem)
    rw [hr, hdrop, hd]
    show afterNameMatches (c :: (d' ++ tail)) = false
    unfold afterNameMatches
    have hsw : startsWith ['=', '='] (c :: (d' ++ tail)) = false := by
      simp only [startsWith]
      have : ('=' = c) = False := by
        simp [eq_comm, hceq]
      simp [this]
    rw [if_neg (by simp [hsw])]
    split
    · rename_i heq
      exfalso
      have : c = '[' := by
        injection heq with h1 _
      exact hcbr this
    · rfl

/-- C5 counterexample: an edit for "foo" (a proper substring of "foo-bar")
applied to a document whose only entry is foo-bar's entry rewrites the
continuation line of that entry, so P1's entry is modified. -/
theorem C5_counterexample_entry_modified :
    amend_requirements_content "foo-bar==2.0 \\\n    foo==1.0\n".toList
        [("foo".toList, "foo".toList, "foo==3.0\n".toList)] =
      "foo-bar==2.0 \\\n    foo==3.0\n".toList ∧
    "foo-bar==2.0 \\\n    foo==3.0\n".toList ≠ "foo-bar==2.0 \\\n    foo==1.0\n".toList := by
  exact ⟨by rfl, by decide⟩

/-- Witness for C5_prefix_name_never_matches_header: the name "foo" against
the header line of "foo-bar", once with a bare ==version tail and once with
a bracketed extras group before the ==. -/
theorem C5_prefix_name_never_matches_header_witness :
    lineMatches "foo".toList ("".toList ++ "foo-bar".toList ++ "==2.0 \\".toList) = false ∧
    lineMatches "foo".toList ("".toList ++ "foo-bar".toList ++ "[security]==2.0".toList) = false :=
  ⟨C5_prefix_name_never_matches_header "foo-bar".toList "foo".toList [] "==2.0 \\".toList
      [] "-bar".toList rfl (by decide) (by decide) (by simp),
    C5_prefix_name_never_matches_header "foo-bar".toList "foo".toList [] "[security]==2.0".toList
      [] "-bar".toList rfl (by decide) (by decide) (by simp)⟩

theorem splitlinesGo_nl_cons (rest : Str) (hr : rest ≠ []) (cur : Str) :
    splitlinesGo ('\n' :: rest) cur = cur.reverse :: splitlinesGo rest [] := by
  obtain ⟨x, xs, rfl⟩ := List.exists_cons_of_ne_nil hr
  simp [splitlinesGo]

theorem splitlinesGo_other {c : Char} (hc : c ≠ '\n') (rest cur : Str) :
    splitlinesGo (c :: rest) cur = splitlinesGo rest (c :: cur) := by
  simp [splitlinesGo, hc]

theorem splitlinesGo_acc (s : Str) :
    ∃ h t, splitlinesGo s [] = h :: t ∧
      ∀ cur, splitlinesGo s cur = (cur.reverse ++ h) :: t := by
  induction s with
  | nil => exact ⟨[], [], rfl, fun cur => by simp [splitlinesGo]⟩
  | cons c s' ih =>
    by_cases hc : c = '\n'
    · subst hc
      cases s' with
      | nil => exact ⟨[], [], rfl, fun cur => by simp [splitlinesGo]⟩
      | cons d s'' =>
        refine ⟨[], splitlinesGo (d :: s'') [], rfl, fun cur => ?_⟩
        rw [splitlinesGo_nl_cons _ (by simp)]
        simp
    · obtain ⟨h, t, _, ih2⟩ := ih
      refine ⟨c :: h, t, ?_, fun cur => ?_⟩
      · rw [splitlinesGo_other hc, ih2 [c]]
        rfl
      · rw [splitlinesGo_other hc, ih2 (c :: cur)]
        simp

theorem splitlinesGo_line (l : Str) (hl : '\n' ∉ l) :
    ∀ s cur, splitlinesGo (l ++ '\n' :: s) cur =
      (cur.reverse ++ l) :: (if s = [] then [] else splitlinesGo s []) := by
  induction l with
  | nil =>
    intro s cur
    cases s with
    | nil => simp [splitlinesGo]
    | cons d s' =>
      rw [List.nil_append, splitlinesGo_nl_cons _ (by simp)]
      simp
  | cons c l' ih =>
    intro s cur
    have hc : c ≠ '\n' := fun h => hl (by rw [h]; exact List.mem_cons_self _ _)
    rw [List.cons_append, splitlinesGo_other hc,
      ih (fun h => hl (List.mem_cons_of_mem c h)) s (c :: cur)]
    simp

theorem unlines_cons (l : Str) (ls : List Str) :
    unlines (l :: ls) = l ++ '\n' :: unlines ls := rfl

theorem unlines_eq_nil {ls : List Str} (h : unlines ls = []) : ls = [] := by
  cases ls with
  | nil => rfl
  | cons a t =>
    rw [unlines_cons] at h
    exact absurd h (by simp)

theorem pySplitlines_unlines (ls : List Str) (h : ∀ l ∈ ls, '\n' ∉ l) :
    pySplitlines (unlines ls) = ls := by
  induction ls with
  | nil => rfl
  | cons l ls' ih =>
    have hno : '\n' ∉ l := h l (List.mem_cons_self l ls')
    rw [unlines_cons]
    unfold pySplitlines
    rw [if_neg (by simp : ¬(l ++ '\n' :: unlines ls' = []))]
    rw [splitlinesGo_line l hno (unlines ls') []]
    simp only [List.reverse_nil, List.nil_append]
    by_cases hun2 : unlines ls' = []
    · rw [if_pos hun2, unlines_eq_nil hun2]
    · rw [if_neg hun2]
      have hih := ih (fun x hx => h x (List.mem_cons_of_mem l hx))
      unfold pySplitlines at hih
      rw [if_neg hun2] at hih
      rw [hih]

theorem splitlinesGo_append_nl (b : Str) (hb : b ≠ []) :
    ∀ a cur, splitlinesGo (a ++ '\n' :: b) cur =
      splitlinesGo (a ++ ['\n']) cur ++ splitlinesGo b [] := by
  intro a
  induction a with
  | nil =>
    intro cur
    rw [List.nil_append, List.nil_append, splitlinesGo_nl_cons b hb]
    simp [splitlinesGo]
  | cons c a' ih =>
    intro cur
    by_cases hc : c = '\n'
    · subst hc
      rw [List.cons_append, splitlinesGo_nl_cons _ (by simp),
        List.cons_append, splitlinesGo_nl_cons _ (by simp), ih []]
      simp
    · rw [List.cons_append, splitlinesGo_other hc, List.cons_append,
        splitlinesGo_other hc, ih (c :: cur)]

theorem pySplitlines_append (a b : Str) :
    pySplitlines (a ++ '\n' :: b) = pySplitlines (a ++ ['\n']) ++ pySplitlines b := by
  by_cases hb : b = []
  · subst hb; simp [pySplitlines]
  · unfold pySplitlines
    rw [if_neg (by simp : ¬(a ++ '\n' :: b = [])),
      if_neg (by simp : ¬(a ++ ['\n'] = [])), if_neg hb]
    exact splitlinesGo_append_nl b hb a []

theorem splitNlGo_nl (rest cur : Str) :
    splitNlGo ('\n' :: rest) cur = cur.reverse :: splitNlGo rest [] := by
  simp [splitNlGo]

theorem splitNlGo_other {c : Char} (hc : c ≠ '\n') (rest cur : Str) :
    splitNlGo (c :: rest) cur = splitNlGo rest (c :: cur) := by
  simp [splitNlGo, hc]

theorem splitlinesGo_snoc_nl (a : Str) :
    ∀ cur, splitlinesGo (a ++ ['\n']) cur = splitNlGo a cur := by
  induction a with
  | nil => intro cur; simp [splitlinesGo, splitNlGo]
  | cons c a' ih =>
    intro cur
    by_cases hc : c = '\n'
    · subst hc
      rw [List.cons_append, splitlinesGo_nl_cons _ (by simp), splitNlGo_nl, ih []]
    · rw [List.cons_append, splitlinesGo_other hc, splitNlGo_other hc, ih (c :: cur)]

theorem splitNlGo_eq_or_snoc (a : Str) :
    ∀ cur, splitNlGo a cur = splitlinesGo a cur ∨
      splitNlGo a cur = splitlinesGo a cur ++ [[]] := by
  induction a with
  | nil => intro cur; left; rfl
  | cons c a' ih =>
    intro cur
    by_cases hc : c = '\n'
    · subst hc
      cases a' with
      | nil =>
        right
        simp [splitNlGo, splitlinesGo]
      | cons d a'' =>
        rw [splitNlGo_nl, splitlinesGo_nl_cons _ (by simp)]
        rcases ih [] with h | h
        · left; rw [h]
        · right; rw [h]; rfl
    · rw [splitNlGo_other hc, splitlinesGo_other hc]
      exact ih (c :: cur)

theorem splitNlGo_ne_nil (a : Str) : ∀ cur, splitNlGo a cur ≠ [] := by
  induction a with
  | nil => intro cur; simp [splitNlGo]
  | cons c a' ih =>
    intro cur
    by_cases hc : c = '\n'
    · subst hc; rw [splitNlGo_nl]; simp
    · rw [splitNlGo_other hc]; exact ih (c :: cur)

theorem pyJoin_splitNlGo (s : Str) :
    ∀ cur, pyJoin ['\n'] (splitNlGo s cur) = cur.reverse ++ s := by
  induction s with
  | nil => intro cur; simp [splitNlGo, pyJoin]
  | cons c s' ih =>
    intro cur
    by_cases hc : c = '\n'
    · subst hc
      rw [splitNlGo_nl]
      have hne := splitNlGo_ne_nil s' []
      obtain ⟨x, xs, hx⟩ := List.exists_cons_of_ne_nil hne
      rw [hx]
      show cur.reverse ++ ['\n'] ++ pyJoin ['\n'] (x :: xs) = cur.reverse ++ '\n' :: s'
      rw [← hx, ih []]
      simp
    · rw [splitNlGo_other hc, ih (c :: cur)]
      simp

theorem pyJoin_splitNl (s : Str) : pyJoin ['\n'] (splitNl s) = s := by
  unfold splitNl
  rw [pyJoin_splitNlGo s []]
  rfl

/-- re.sub with an empty indent leaves the replacement text unchanged. -/
theorem reindent_nil (txt : Str) : reindent [] txt = txt := by
  unfold reindent
  have hmap : (splitNl txt).map (fun seg => if seg = [] then ([] : Str) else [] ++ seg) =
      (splitNl txt).map id := by
    apply List.map_congr_left
    intro seg _
    by_cases h : seg = []
    · rw [if_pos h, h]; rfl
    · rw [if_neg h]; rfl
  rw [hmap, List.map_id]
  exact pyJoin_splitNl txt

theorem dropPre_eq {pat s r : Str} (h : dropPre pat s = some r) : s = pat ++ r := by
  induction pat generalizing s with
  | nil =>
    simp only [dropPre] at h
    cases h
    rfl
  | cons p ps ih =>
    cases s with
    | nil => exact Option.noConfusion h
    | cons c cs =>
      simp only [dropPre] at h
      by_cases hpc : p = c
      · rw [if_pos hpc] at h
        rw [List.cons_append, hpc, ih h]
      · rw [if_neg hpc] at h
        exact Option.noConfusion h

theorem replaceGo_self (pat : Str) (hpat : pat ≠ []) :
    ∀ fuel s, s.length ≤ fuel → replaceGo pat pat fuel s = s := by
  intro fuel
  induction fuel with
  | zero =>
    intro s hs
    have : s = [] := List.length_eq_zero.mp (Nat.le_zero.mp hs)
    subst this
    rfl
  | succ fuel ih =>
    intro s hs
    cases s with
    | nil => rfl
    | cons c rest =>
      show (match dropPre pat (c :: rest) with
        | some r => pat ++ replaceGo pat pat fuel r
        | none => c :: replaceGo pat pat fuel rest) = c :: rest
      rcases hd : dropPre pat (c :: rest) with _ | r
      · simp only
        rw [ih rest (by simp only [List.length_cons] at hs; omega)]
      · simp only
        have heq := dropPre_eq hd
        have hplen : 0 < pat.length := List.length_pos.mpr hpat
        have hrlen : r.length ≤ fuel := by
          have : (c :: rest).length = pat.length + r.length := by
            rw [heq, List.length_append]
          simp only [List.length_cons] at this hs
          omega
        rw [ih r hrlen, ← heq]

theorem replaceEmptyPat_nil (s : Str) : replaceEmptyPat [] s = s := by
  induction s with
  | nil => rfl
  | cons c rest ih => simp [replaceEmptyPat, ih]

/-- Replacing a pattern by itself never changes the text. -/
theorem replaceAll_self (s pat : Str) : replaceAll s pat pat = s := by
  unfold replaceAll
  by_cases hpat : pat = []
  · rw [if_pos hpat, hpat, replaceEmptyPat_nil]
  · rw [if_neg hpat]
    exact replaceGo_self pat hpat s.length s (Nat.le_refl _)

theorem startsWith_mono {p s : Str} (h : startsWith p s = true) (t : Str) :
    startsWith p (s ++ t) = true := by
  induction p generalizing s with
  | nil => rfl
  | cons x xs ih =>
    cases s with
    | nil => exact absurd h (by simp [startsWith])
    | cons c cs =>
      simp only [startsWith, Bool.and_eq_true] at h ⊢
      exact ⟨h.1, ih h.2 ⟩

theorem containsCloseEq_mono {r : Str} (h : containsCloseEq r = true) (t : Str) :
    containsCloseEq (r ++ t) = true := by
  induction r with
  | nil => exact absurd h (by simp [containsCloseEq])
  | cons c r' ih =>
    simp only [containsCloseEq, Bool.or_eq_true, Bool.and_eq_true] at h ⊢
    rcases h with ⟨h1, h2⟩ | h2
    · exact Or.inl ⟨h1, startsWith_mono h2 t⟩
    · exact Or.inr (ih h2)

theorem matchName_append {name s r : Str} (h : matchName name s = some r) (t : Str) :
    matchName name (s ++ t) = some (r ++ t) := by
  induction name generalizing s with
  | nil =>
    simp only [matchName] at h
    cases h
    rfl
  | cons p ps ih =>
    cases s with
    | nil => exact Option.noConfusion h
    | cons c cs =>
      simp only [matchName] at h ⊢
      by_cases hc : charMatches p c = true
      · rw [if_pos hc] at h ⊢
        exact ih h
      · rw [if_neg hc] at h
        exact Option.noConfusion h

theorem afterNameMatches_mono {r : Str} (h : afterNameMatches r = true) (t : Str) :
    afterNameMatches (r ++ t) = true := by
  unfold afterNameMatches at h ⊢
  by_cases hsw2 : startsWith ['=', '='] (r ++ t) = true
  · rw [if_pos hsw2]
  · rw [if_neg hsw2]
    by_cases hsw : startsWith ['=', '='] r = true
    · exact absurd (startsWith_mono hsw t) hsw2
    · rw [if_neg hsw] at h
      cases r with
      | nil => simp at h
      | cons c r' =>
        by_cases hc : c = '['
        · subst hc
          show containsCloseEq (r' ++ t) = true
          have hclose : containsCloseEq r' = true := by
            simpa using h
          exact containsCloseEq_mono hclose t
        · exfalso
          revert h
          show (match c :: r' with
            | '[' :: r_1 => containsCloseEq r_1
            | _ => false) = true → False
          split
          · rename_i heq
            intro _
            exact hc (by injection heq with h1 _)
          · simp

theorem lineMatches_nil (name : Str) : lineMatches name [] = false := by
  cases name with
  | nil => rfl
  | cons p ps => rfl

theorem lineMatches_cons_blank {c : Char} (hc : isBlankChar c = true) (name l : Str) :
    lineMatches name (c :: l) = lineMatches name l := by
  unfold lineMatches
  rw [List.dropWhile_cons, if_pos hc]

theorem lineMatches_extend_right {name l : Str} (h : lineMatches name l = true)
    (t : Str) : lineMatches name (l ++ t) = true := by
  induction l with
  | nil => rw [lineMatches_nil] at h; exact Bool.noConfusion h
  | cons c l' ih =>
    by_cases hc : isBlankChar c = true
    · rw [lineMatches_cons_blank hc] at h
      rw [List.cons_append, lineMatches_cons_blank hc]
      exact ih h
    · have hc' : isBlankChar c = false := by
        exact Bool.not_eq_true _ ▸ (by simpa using hc)
      unfold lineMatches at h ⊢
      rw [List.dropWhile_cons, if_neg (by simp [hc'])] at h
      rw [List.cons_append, List.dropWhile_cons, if_neg (by simp [hc'])]
      rcases hm : matchName name (c :: l') with _ | r
      · rw [hm] at h; exact Bool.noConfusion h
      · rw [hm] at h
        rw [show c :: (l' ++ t) = (c :: l') ++ t from rfl, matchName_append hm t]
        exact afterNameMatches_mono h t

theorem lineMatches_all_blank {name l : Str} (hl : ∀ c ∈ l, isBlankChar c = true) :
    lineMatches name l = false := by
  induction l with
  | nil => exact lineMatches_nil name
  | cons c l' ih =>
    rw [lineMatches_cons_blank (hl c (List.mem_cons_self c l'))]
    exact ih (fun x hx => hl x (List.mem_cons_of_mem c hx))

theorem splitlinesGo_snoc_other {c : Char} (hc : c ≠ '\n') (a : Str) :
    ∀ cur l, l ∈ splitlinesGo a cur →
      l ∈ splitlinesGo (a ++ [c]) cur ∨ l ++ [c] ∈ splitlinesGo (a ++ [c]) cur := by
  induction a with
  | nil =>
    intro cur l hl
    simp only [splitlinesGo] at hl
    rcases List.mem_singleton.mp hl with rfl
    right
    rw [List.nil_append, splitlinesGo_other hc]
    simp [splitlinesGo]
  | cons d a' ih =>
    intro cur l hl
    by_cases hd : d = '\n'
    · subst hd
      cases a' with
      | nil =>
        simp only [splitlinesGo] at hl
        rcases List.mem_singleton.mp hl with rfl
        left
        rw [List.cons_append, List.nil_append, splitlinesGo_nl_cons [c] (by simp)]
        exact List.mem_cons_self _ _
      | cons e a'' =>
        rw [splitlinesGo_nl_cons _ (by simp)] at hl
        rw [List.cons_append, splitlinesGo_nl_cons _ (by simp)]
        rcases List.mem_cons.mp hl with rfl | hl'
        · left; exact List.mem_cons_self _ _
        · rcases ih [] l hl' with h | h
          · left; exact List.mem_cons_of_mem _ h
          · right; exact List.mem_cons_of_mem _ h
    · rw [splitlinesGo_other hd] at hl
      rw [List.cons_append, splitlinesGo_other hd]
      exact ih (d :: cur) l hl

theorem noMatch_snoc_nl {name x : Str}
    (h : ∀ l ∈ pySplitlines x, lineMatches name l = false) :
    ∀ l ∈ pySplitlines (x ++ ['\n']), lineMatches name l = false := by
  intro l hl
  cases hx : x with
  | nil =>
    subst hx
    simp only [pySplitlines, List.nil_append] at hl
    rw [if_neg (by simp)] at hl
    simp only [splitlinesGo] at hl
    rcases List.mem_singleton.mp hl with rfl
    exact lineMatches_nil name
  | cons d x' =>
    subst hx
    unfold pySplitlines at hl h
    rw [if_neg (by simp)] at hl
    rw [if_neg (by simp)] at h
    rw [splitlinesGo_snoc_nl _ []] at hl
    rcases splitNlGo_eq_or_snoc (d :: x') [] with he | he
    · rw [he] at hl
      exact h l hl
    · rw [he] at hl
      rcases List.mem_append.mp hl with hl' | hl'
      · exact h l hl'
      · rcases List.mem_singleton.mp hl' with rfl
        exact lineMatches_nil name

theorem noMatch_unsnoc_nl {name x : Str}
    (h : ∀ l ∈ pySplitlines (x ++ ['\n']), lineMatches name l = false) :
    ∀ l ∈ pySplitlines x, lineMatches name l = false := by
  intro l hl
  apply h
  cases hx : x with
  | nil => rw [hx] at hl; exact absurd hl (by simp [pySplitlines])
  | cons d x' =>
    subst hx
    unfold pySplitlines at hl ⊢
    rw [if_neg (by simp)] at hl
    rw [if_neg (by simp)]
    rw [splitlinesGo_snoc_nl _ []]
    rcases splitNlGo_eq_or_snoc (d :: x') [] with he | he
    · rw [he]; exact hl
    · rw [he]; exact List.mem_append_left _ hl

theorem noMatch_unsnoc_other {name x : Str} {c : Char} (hc : c ≠ '\n')
    (h : ∀ l ∈ pySplitlines (x ++ [c]), lineMatches name l = false) :
    ∀ l ∈ pySplitlines x, lineMatches name l = false := by
  intro l hl
  cases hx : x with
  | nil => rw [hx] at hl; exact absurd hl (by simp [pySplitlines])
  | cons d x' =>
    subst hx
    unfold pySplitlines at hl h
    rw [if_neg (by simp)] at hl
    rw [if_neg (by simp)] at h
    rcases splitlinesGo_snoc_other hc (d :: x') [] l hl with hm | hm
    · exact h l hm
    · by_contra hmatch
      rw [Bool.not_eq_false] at hmatch
      have := lineMatches_extend_right hmatch [c]
      rw [h (l ++ [c]) hm] at this
      exact Bool.noConfusion this

theorem isBlankChar_ne_nl {c : Char} (hb : isBlankChar c = true) : c ≠ '\n' := by
  intro hc
  subst hc
  exact absurd hb (by decide)

theorem noMatch_dropWhile_left {name : Str} : ∀ {s : Str},
    (∀ c ∈ s, pyIsSpace c = true → isBlankChar c = true ∨ c = '\n') →
    (∀ l ∈ pySplitlines s, lineMatches name l = false) →
    ∀ l ∈ pySplitlines (s.dropWhile pyIsSpace), lineMatches name l = false := by
  intro s
  induction s with
  | nil => intro _ h; exact h
  | cons c s' ih =>
    intro hws h
    by_cases hsp : pyIsSpace c = true
    · rw [List.dropWhile_cons, if_pos hsp]
      apply ih (fun x hx => hws x (List.mem_cons_of_mem c hx))
      rcases hws c (List.mem_cons_self c s') hsp with hb | hnl
      · intro l hl
        cases hs' : s' with
        | nil => rw [hs'] at hl; exact absurd hl (by simp [pySplitlines])
        | cons e s'' =>
          subst hs'
          have hcnl : c ≠ '\n' := isBlankChar_ne_nl hb
          obtain ⟨h0, t0, ha, hacc⟩ := splitlinesGo_acc (e :: s'')
          have hlines : pySplitlines (c :: e :: s'') = (c :: h0) :: t0 := by
            unfold pySplitlines
            rw [if_neg (by simp), splitlinesGo_other hcnl, hacc [c]]
            rfl
          have hl' : l ∈ h0 :: t0 := by
            unfold pySplitlines at hl
            rw [if_neg (by simp), ha] at hl
            exact hl
          rcases List.mem_cons.mp hl' with rfl | hlt
          · have := h (c :: l) (by rw [hlines]; exact List.mem_cons_self _ _)
            rw [lineMatches_cons_blank hb] at this
            exact this
          · exact h l (by rw [hlines]; exact List.mem_cons_of_mem _ hlt)
      · subst hnl
        intro l hl
        cases hs' : s' with
        | nil => rw [hs'] at hl; exact absurd hl (by simp [pySplitlines])
        | cons e s'' =>
          subst hs'
          apply h l
          unfold pySplitlines at hl ⊢
          rw [if_neg (by simp)] at hl
          rw [if_neg (by simp), splitlinesGo_nl_cons _ (by simp)]
          exact List.mem_cons_of_mem _ hl
    · rw [List.dropWhile_cons, if_neg hsp]
      exact h

theorem noMatch_rightStrip {name : Str} : ∀ {s : Str},
    (∀ c ∈ s, pyIsSpace c = true → isBlankChar c = true ∨ c = '\n') →
    (∀ l ∈ pySplitlines s, lineMatches name l = false) →
    ∀ l ∈ pySplitlines ((s.reverse.dropWhile pyIsSpace).reverse),
      lineMatches name l = false := by
  intro s
  induction s using List.reverseRecOn with
  | nil => intro _ h; exact h
  | append_singleton a c ih =>
    intro hws h
    simp only [List.reverse_append, List.reverse_cons, List.reverse_nil,
      List.nil_append, List.singleton_append]
    by_cases hsp : pyIsSpace c = true
    · rw [List.dropWhile_cons, if_pos hsp]
      apply ih (fun x hx => hws x (List.mem_append_left _ hx))
      rcases hws c (List.mem_append_right _ (List.mem_singleton_self c)) hsp with hb | hnl
      · exact noMatch_unsnoc_other (isBlankChar_ne_nl hb) h
      · subst hnl
        exact noMatch_unsnoc_nl h
    · rw [List.dropWhile_cons, if_neg hsp]
      intro l hl
      apply h l
      have : (c :: a.reverse).reverse = a ++ [c] := by simp
      rw [this] at hl
      exact hl

/-- Stripping whitespace from a document never creates a header match that
was not already present on some line. -/
theorem noMatch_pyStrip {name s : Str}
    (hws : ∀ c ∈ s, pyIsSpace c = true → isBlankChar c = true ∨ c = '\n')
    (h : ∀ l ∈ pySplitlines s, lineMatches name l = false) :
    ∀ l ∈ pySplitlines (pyStrip s), lineMatches name l = false := by
  unfold pyStrip
  exact noMatch_rightStrip
    (fun x hx => hws x ((List.dropWhile_sublist pyIsSpace).subset hx))
    (noMatch_dropWhile_left hws h)

theorem startsWith_of_append {a b l : Str} (h : startsWith (a ++ b) l = true) :
    startsWith a l = true := by
  induction a generalizing l with
  | nil => rfl
  | cons x xs ih =>
    cases l with
    | nil => exact absurd h (by simp [startsWith])
    | cons c cs =>
      simp only [List.cons_append, startsWith, Bool.and_eq_true] at h ⊢
      exact ⟨h.1, ih h.2⟩

theorem findFirstMatch_cons (name l : Str) (ls : List Str) :
    findFirstMatch name (l :: ls) =
      if lineMatches name l = true then some l else findFirstMatch name ls := rfl

theorem findFirstMatch_append_none {name : Str} {pre : List Str}
    (h : ∀ l ∈ pre, lineMatches name l = false) (rest : List Str) :
    findFirstMatch name (pre ++ rest) = findFirstMatch name rest := by
  induction pre with
  | nil => rfl
  | cons l pre' ih =>
    rw [List.cons_append, findFirstMatch_cons,
      if_neg (by simp [h l (List.mem_cons_self l pre')])]
    exact ih (fun x hx => h x (List.mem_cons_of_mem l hx))

theorem findFirstMatch_cons_match {name l : Str} (h : lineMatches name l = true)
    (ls : List Str) : findFirstMatch name (l :: ls) = some l := by
  rw [findFirstMatch_cons, if_pos h]

theorem findFirstMatch_none {name : Str} {ls : List Str}
    (h : ∀ l ∈ ls, lineMatches name l = false) : findFirstMatch name ls = none := by
  induction ls with
  | nil => rfl
  | cons l ls' ih =>
    rw [findFirstMatch_cons, if_neg (by simp [h l (List.mem_cons_self l ls')])]
    exact ih (fun x hx => h x (List.mem_cons_of_mem l hx))

theorem collectGo_cons (name indent : Str) (acc : List Str) (l : Str)
    (rest : List Str) :
    collectGo name indent acc (l :: rest) =
      if lineMatches name l = true then collectGo name indent (acc ++ [l]) rest
      else if (decide (acc ≠ []) && startsWith (indent ++ padding ++ ['#']) l) = true
        then acc
      else if (decide (acc ≠ []) && startsWith (indent ++ padding) l) = true
        then collectGo name indent (acc ++ [l]) rest
      else if acc ≠ [] then acc
      else collectGo name indent acc rest := rfl

theorem and_decide_pos {p : Prop} [Decidable p] {b : Bool} (hp : p) (hb : b = true) :
    (decide p && b) = true := by
  rw [hb, decide_eq_true hp]
  rfl

theorem and_right_false {p : Prop} [Decidable p] {b : Bool} (hb : b = false) :
    (decide p && b) = false := by
  rw [hb, Bool.and_false]

theorem collectGo_skip {name indent : Str} {pre : List Str}
    (h : ∀ l ∈ pre, lineMatches name l = false) (rest : List Str) :
    collectGo name indent [] (pre ++ rest) = collectGo name indent [] rest := by
  induction pre with
  | nil => rfl
  | cons l pre' ih =>
    rw [List.cons_append, collectGo_cons,
      if_neg (by simp [h l (List.mem_cons_self l pre')])]
    exact ih (fun x hx => h x (List.mem_cons_of_mem l hx))

theorem collectGo_conts {name indent : Str} {conts : List Str}
    (hc : ∀ l ∈ conts, lineMatches name l = false ∧
      startsWith (indent ++ padding ++ ['#']) l = false ∧
      startsWith (indent ++ padding) l = true)
    {post : List Str}
    (hpost : post = [] ∨ ∃ p rest, post = p :: rest ∧ lineMatches name p = false ∧
      (startsWith (indent ++ padding ++ ['#']) p = true ∨
        startsWith (indent ++ padding) p = false)) :
    ∀ acc, acc ≠ [] → collectGo name indent acc (conts ++ post) = acc ++ conts := by
  induction conts with
  | nil =>
    intro acc hacc
    rw [List.nil_append, List.append_nil]
    rcases hpost with rfl | ⟨p, rest, rfl, hnm, hbr⟩
    · rfl
    · rw [collectGo_cons, if_neg (by simp [hnm])]
      rcases hbr with hcom | hpad
      · rw [if_pos (and_decide_pos hacc hcom)]
      · have hcom : startsWith (indent ++ padding ++ ['#']) p = false := by
          by_contra hc2
          rw [Bool.not_eq_false] at hc2
          rw [startsWith_of_append hc2] at hpad
          exact Bool.noConfusion hpad
        rw [if_neg (by rw [and_right_false hcom]; exact Bool.false_ne_true)]
        rw [if_neg (by rw [and_right_false hpad]; exact Bool.false_ne_true)]
        rw [if_pos hacc]
  | cons l conts' ih =>
    intro acc hacc
    obtain ⟨hnm, hncom, hpad⟩ := hc l (List.mem_cons_self l conts')
    rw [List.cons_append, collectGo_cons, if_neg (by simp [hnm]),
      if_neg (by rw [and_right_false hncom]; exact Bool.false_ne_true),
      if_pos (and_decide_pos hacc hpad),
      ih (fun x hx => hc x (List.mem_cons_of_mem l hx)) (acc ++ [l]) (by simp)]
    simp

theorem collectGo_header {name indent header : Str} (h : lineMatches name header = true)
    (rest : List Str) :
    collectGo name indent [] (header :: rest) = collectGo name indent [header] rest := by
  rw [collectGo_cons, if_pos h, List.nil_append]

theorem memStr_iff {x : Str} {l : List Str} : memStr x l = true ↔ x ∈ l := by
  unfold memStr
  rw [List.any_eq_true]
  constructor
  · intro ⟨y, hy, he⟩
    have : y = x := by simpa using he
    exact this ▸ hy
  · intro hx
    exact ⟨x, hx, by simp⟩

theorem setEqStr_of_perm {a b : List Str} (h : List.Perm a b) : setEqStr a b = true := by
  unfold setEqStr
  rw [Bool.and_eq_true, List.all_eq_true, List.all_eq_true]
  constructor
  · intro x hx
    exact memStr_iff.mpr (h.mem_iff.mp hx)
  · intro x hx
    exact memStr_iff.mpr (h.mem_iff.mpr hx)

/-- The comparison inside amend_requirements_content reports "not different"
whenever the cleaned old lines are a permutation of the cleaned new lines. -/
theorem is_different_lines_false_of_perm {old new : List Str} {indent : Str}
    (h : List.Perm (old.map (fun l => normalizeDelims (stripSpaceBackslash l)))
      (new.map (fun x => indent ++ stripSpaceBackslash x))) :
    is_different_lines old new indent = false := by
  unfold is_different_lines
  rw [setEqStr_of_perm h]
  rfl

theorem pyJoin_snoc_nil (ls : List Str) :
    pyJoin ['\n'] (ls ++ [[]]) = unlines ls := by
  induction ls with
  | nil => rfl
  | cons x xs ih =>
    cases xs with
    | nil => simp [pyJoin, unlines]
    | cons y ys =>
      show x ++ ['\n'] ++ pyJoin ['\n'] ((y :: ys) ++ [[]]) = unlines (x :: y :: ys)
      rw [ih]
      simp [unlines_cons]

/-- Witness for C7_update_all_no_edits: one spec already pinned at the
resolved version. -/
theorem C7_update_all_no_edits_witness :
    run_packages
        ⟨"sha256".toList, false, false,
          some (fun _ => some "==1.0".toList), fun _ => IResp.yes⟩
        (fun _ _ => .ok ⟨"pkg".toList, "1.0".toList, ["h".toList]⟩)
        ["pkg".toList] "before".toList = (.ok 0, []) :=
  C7_update_all_no_edits _ _ _ _ (fun _ => some "==1.0".toList) rfl
    (fun spec _ => ⟨"pkg".toList, none, none, ⟨"pkg".toList, "1.0".toList, ["h".toList]⟩,
      by
        have : spec = "pkg".toList := by
          rename_i hsp
          simpa using hsp
        rw [this]; rfl,
      rfl, rfl⟩)

theorem amend_single (req : Str) (e : Str × Str × Str) :
    amend_requirements_content req [e] = amendOne req e := rfl

theorem amendOne_nomatch {req : Str} (pkg name newText : Str)
    (hfind : findFirstMatch name (pySplitlines req) = none) :
    amendOne req (pkg, name, newText) =
      (if req = [] then [] else pyStrip req ++ ['\n']) ++ pyStrip newText ++ ['\n'] := by
  simp only [amendOne]
  rw [hfind]

theorem amendOne_match {req : Str} (pkg name newText header : Str)
    (hfind : findFirstMatch name (pySplitlines req) = some header) :
    amendOne req (pkg, name, newText) =
      (if is_different_lines (collectGo name (leadingBlanks header) [] (pySplitlines req))
          (pySplitlines newText) (leadingBlanks header) = true then
        replaceAll req
          (pyJoin ['\n'] (collectGo name (leadingBlanks header) [] (pySplitlines req) ++ [[]]))
          (reindent (leadingBlanks header) newText)
      else req) := by
  simp only [amendOne]
  rw [hfind]

/-- C3 (amended): a document containing an entry at zero indentation whose
cleaned lines (strip spaces and backslashes; hyphens and underscores
normalised on the document side) are a permutation of the replacement
block's cleaned lines is returned unchanged by amend_requirements_content.
At non-zero indentation the comparison always reports a difference (the
indent is prefixed only to the new lines) and the entry is rewritten, see
the counterexample. -/
theorem C3_amend_permuted_hashes_unchanged
    (pre hashes post : List Str) (name header newText pkg : Str)
    (hnl : ∀ l ∈ pre ++ header :: hashes ++ post, '\n' ∉ l)
    (hpre : ∀ l ∈ pre, lineMatches name l = false)
    (hheader : lineMatches name header = true)
    (hindent : leadingBlanks header = [])
    (hhash : ∀ l ∈ hashes, lineMatches name l = false ∧
      startsWith (padding ++ ['#']) l = false ∧ startsWith padding l = true)
    (hpost : post = [] ∨ ∃ p rest, post = p :: rest ∧ lineMatches name p = false ∧
      (startsWith (padding ++ ['#']) p = true ∨ startsWith padding p = false))
    (hperm : List.Perm
      ((header :: hashes).map (fun l => normalizeDelims (stripSpaceBackslash l)))
      ((pySplitlines newText).map stripSpaceBackslash)) :
    amend_requirements_content (unlines (pre ++ header :: hashes ++ post))
      [(pkg, name, newText)] = unlines (pre ++ header :: hashes ++ post) := by
  have hlines : pySplitlines (unlines (pre ++ header :: hashes ++ post)) =
      pre ++ header :: hashes ++ post := pySplitlines_unlines _ hnl
  have hshape : pre ++ header :: hashes ++ post = pre ++ (header :: (hashes ++ post)) := by
    rw [List.append_assoc, List.cons_append]
  have hfind : findFirstMatch name
      (pySplitlines (unlines (pre ++ header :: hashes ++ post))) = some header := by
    rw [hlines, hshape]
    exact (findFirstMatch_append_none hpre _).trans (findFirstMatch_cons_match hheader _)
  have hcollect : collectGo name [] []
      (pySplitlines (unlines (pre ++ header :: hashes ++ post))) = header :: hashes := by
    rw [hlines, hshape]
    refine ((collectGo_skip hpre _).trans ((collectGo_header hheader _).trans ?_))
    have hc' : ∀ l ∈ hashes, lineMatches name l = false ∧
        startsWith (([] : Str) ++ padding ++ ['#']) l = false ∧
        startsWith (([] : Str) ++ padding) l = true := by
      intro l hl
      obtain ⟨h1, h2, h3⟩ := hhash l hl
      exact ⟨h1, by simpa using h2, by simpa using h3⟩
    have hp' : post = [] ∨ ∃ p rest, post = p :: rest ∧ lineMatches name p = false ∧
        (startsWith (([] : Str) ++ padding ++ ['#']) p = true ∨
          startsWith (([] : Str) ++ padding) p = false) := by
      rcases hpost with rfl | ⟨p, rest, rfl, h1, h2⟩
      · exact Or.inl rfl
      · refine Or.inr ⟨p, rest, rfl, h1, ?_⟩
        rcases h2 with h2 | h2
        · exact Or.inl (by simpa using h2)
        · exact Or.inr (by simpa using h2)
    exact collectGo_conts hc' hp' [header] (by simp)
  rw [amend_single, amendOne_match pkg name newText header hfind]
  rw [hindent]
  rw [hcollect]
  have hmapeq : (pySplitlines newText).map (fun x => ([] : Str) ++ stripSpaceBackslash x) =
      (pySplitlines newText).map stripSpaceBackslash :=
    List.map_congr_left (fun x _ => List.nil_append _)
  rw [is_different_lines_false_of_perm (by rw [hmapeq]; exact hperm)]
  simp

/-- C3 counterexample: an entry indented by two spaces whose replacement
block carries the same two hashes in the opposite order is not left
unchanged: is_different_lines prefixes the indent only to the new lines, so
the comparison reports a difference and the hashes are rewritten in the new
order. -/
theorem C3_counterexample_indented_entry :
    amend_requirements_content
        "  foo==1.0 \\\n      --hash=sha256:bbb \\\n      --hash=sha256:aaa\n".toList
        [("foo".toList, "foo".toList,
          "foo==1.0 \\\n    --hash=sha256:aaa \\\n    --hash=sha256:bbb\n".toList)] =
      "  foo==1.0 \\\n      --hash=sha256:aaa \\\n      --hash=sha256:bbb\n".toList ∧
    "  foo==1.0 \\\n      --hash=sha256:aaa \\\n      --hash=sha256:bbb\n".toList ≠
      "  foo==1.0 \\\n      --hash=sha256:bbb \\\n      --hash=sha256:aaa\n".toList := by
  exact ⟨by rfl, by decide⟩

/-- Witness for C3_amend_permuted_hashes_unchanged: the autocompeter entry
with its two hashes proposed in reverse order. -/
theorem C3_amend_permuted_hashes_unchanged_witness :
    amend_requirements_content
        (unlines (([] : List Str) ++ "autocompeter==1.2.2".toList ::
          ["    --hash=sha256:aaa".toList, "    --hash=sha256:bbb".toList] ++ ([] : List Str)))
        [("autocompeter".toList, "autocompeter".toList,
          "autocompeter==1.2.2\n    --hash=sha256:bbb\n    --hash=sha256:aaa\n".toList)] =
      unlines (([] : List Str) ++ "autocompeter==1.2.2".toList ::
        ["    --hash=sha256:aaa".toList, "    --hash=sha256:bbb".toList] ++ ([] : List Str)) :=
  C3_amend_permuted_hashes_unchanged []
    ["    --hash=sha256:aaa".toList, "    --hash=sha256:bbb".toList] []
    "autocompeter".toList "autocompeter==1.2.2".toList
    "autocompeter==1.2.2\n    --hash=sha256:bbb\n    --hash=sha256:aaa\n".toList
    "autocompeter".toList
    (by decide) (by simp) (by decide) (by decide) (by decide) (Or.inl rfl) (by decide)

/-- C2 counterexample: an edit whose new block does not match its own
old-name pattern ("bar" vs a block for "foo") is appended again on the
second application, so amend is not idempotent for every document and edit
list. -/
theorem C2_counterexample_not_idempotent :
    amend_requirements_content
        (amend_requirements_content []
          [("foo".toList, "bar".toList, "foo==1.0\n".toList)])
        [("foo".toList, "bar".toList, "foo==1.0\n".toList)] =
      "foo==1.0\nfoo==1.0\n".toList ∧
    amend_requirements_content [] [("foo".toList, "bar".toList, "foo==1.0\n".toList)] =
      "foo==1.0\n".toList ∧
    ("foo==1.0\nfoo==1.0\n".toList : Str) ≠ "foo==1.0\n".toList := by
  exact ⟨by rfl, by rfl, by decide⟩

/-- C2 (amended): amend_requirements_content is idempotent for a single edit
on every document with no existing match for the edit, provided the new
block is in the canonical form the driver emits: a header line (at zero
indentation, matched by the edit's own old-name pattern) followed by
continuation lines indented four spaces that are not comments, every line
newline-free, and the whole block equal to its own stripped form plus one
trailing newline.  The second application either finds the appended block
equivalent (set comparison) or replaces its own text by itself. -/
theorem C2_amend_idempotent_no_prior_match
    (D : Str) (pkg name header : Str) (conts : List Str)
    (hws : ∀ c ∈ D, pyIsSpace c = true → isBlankChar c = true ∨ c = '\n')
    (hnomatch : ∀ l ∈ pySplitlines D, lineMatches name l = false)
    (hnl : ∀ l ∈ header :: conts, '\n' ∉ l)
    (hstrip : pyStrip (unlines (header :: conts)) ++ ['\n'] = unlines (header :: conts))
    (hheader : lineMatches name header = true)
    (hindent : leadingBlanks header = [])
    (hhc : ∀ l ∈ conts, lineMatches name l = false ∧
      startsWith (padding ++ ['#']) l = false ∧ startsWith padding l = true) :
    amend_requirements_content
        (amend_requirements_content D [(pkg, name, unlines (header :: conts))])
        [(pkg, name, unlines (header :: conts))] =
      amend_requirements_content D [(pkg, name, unlines (header :: conts))] := by
  have htxtlines : pySplitlines (unlines (header :: conts)) = header :: conts :=
    pySplitlines_unlines _ hnl
  have hfind1 : findFirstMatch name (pySplitlines D) = none :=
    findFirstMatch_none hnomatch
  rw [amend_single, amend_single,
    amendOne_nomatch pkg name (unlines (header :: conts)) hfind1]
  have hA : (if D = [] then [] else pyStrip D ++ ['\n']) ++
      pyStrip (unlines (header :: conts)) ++ ['\n'] =
      (if D = [] then [] else pyStrip D ++ ['\n']) ++ unlines (header :: conts) := by
    rw [List.append_assoc, hstrip]
  rw [hA]
  set DD : Str := if D = [] then [] else pyStrip D ++ ['\n'] with hDDdef
  have hDDlines : pySplitlines (DD ++ unlines (header :: conts)) =
      pySplitlines DD ++ (header :: conts) := by
    by_cases hD : D = []
    · rw [hDDdef, if_pos hD]
      rw [List.nil_append, htxtlines]
      rfl
    · rw [hDDdef, if_neg hD]
      have hsh : (pyStrip D ++ ['\n']) ++ unlines (header :: conts) =
          pyStrip D ++ '\n' :: unlines (header :: conts) := by
        rw [List.append_assoc]
        rfl
      rw [hsh, pySplitlines_append, htxtlines]
  have hNMDD : ∀ l ∈ pySplitlines DD, lineMatches name l = false := by
    by_cases hD : D = []
    · rw [hDDdef, if_pos hD]
      intro l hl
      exact absurd hl (by simp [pySplitlines])
    · rw [hDDdef, if_neg hD]
      exact noMatch_snoc_nl (noMatch_pyStrip hws hnomatch)
  have hfind2 : findFirstMatch name
      (pySplitlines (DD ++ unlines (header :: conts))) = some header := by
    rw [hDDlines]
    exact (findFirstMatch_append_none hNMDD _).trans
      (findFirstMatch_cons_match hheader _)
  have hcollect : collectGo name [] []
      (pySplitlines (DD ++ unlines (header :: conts))) = header :: conts := by
    rw [hDDlines]
    refine (collectGo_skip hNMDD _).trans ((collectGo_header hheader _).trans ?_)
    have hc' : ∀ l ∈ conts, lineMatches name l = false ∧
        startsWith (([] : Str) ++ padding ++ ['#']) l = false ∧
        startsWith (([] : Str) ++ padding) l = true := by
      intro l hl
      obtain ⟨h1, h2, h3⟩ := hhc l hl
      exact ⟨h1, by simpa using h2, by simpa using h3⟩
    have := @collectGo_conts name [] conts hc' [] (Or.inl rfl) [header] (by simp)
    rw [List.append_nil] at this
    rw [this]
    rfl
  rw [amendOne_match pkg name (unlines (header :: conts)) header hfind2]
  rw [hindent, hcollect, htxtlines]
  rcases hdiff : is_different_lines (header :: conts) (header :: conts) [] with _ | _
  · simp
  · simp only [if_true]
    rw [pyJoin_snoc_nil, reindent_nil, replaceAll_self]

/-- Witness for C2_amend_idempotent_no_prior_match: a comment-only document
and a canonical two-line block for "foo". -/
theorem C2_amend_idempotent_no_prior_match_witness :
    amend_requirements_content
        (amend_requirements_content "# so far\n".toList
          [("foo".toList, "foo".toList,
            unlines ["foo==1.0 \\".toList, "    --hash=sha256:aaa".toList])])
        [("foo".toList, "foo".toList,
          unlines ["foo==1.0 \\".toList, "    --hash=sha256:aaa".toList])] =
      amend_requirements_content "# so far\n".toList
        [("foo".toList, "foo".toList,
          unlines ["foo==1.0 \\".toList, "    --hash=sha256:aaa".toList])] :=
  C2_amend_idempotent_no_prior_match "# so far\n".toList "foo".toList "foo".toList
    "foo==1.0 \\".toList ["    --hash=sha256:aaa".toList]
    (by decide) (by decide) (by decide) (by rfl) (by decide) (by decide) (by decide)

end Hashin
